import Mathlib

/-!
# Verification of the hash-join and grouped hash-aggregation operators

Shallow embedding of the two source files of this repository:

* `src/datafusion/src/physical_plan/hash_join.rs` (hash equi-join), and
* `src/datafusion/core/src/physical_plan/aggregates/row_hash.rs`
  (grouped hash aggregation, `GroupedHashAggregateStreamV2`).

Modelling conventions used throughout:

* Machine integers (`u64`) become `Nat` with explicit reduction modulo
  `2^64` wherever the Rust code uses wrapping arithmetic.
* Arrow arrays become `Col`: a list of underlying values together with a
  validity list (the null bitmap).  All primitive element types of the
  source are structurally identical in the per-type macro arms
  (`equal_rows_elem`, `hash_array…`), so a single element type `Int`
  stands for all of them; the `DataType::Null` arm and the
  unsupported-data-type error arm are not modelled.
* Fallible Rust code returns `Except`/`Option`; a Rust `panic!` or index
  out of bounds becomes `Option.none` of the surrounding function.
* The external hash function (`ahash` through `CallHasher::get_hash`) is
  an opaque parameter `getHash : Int → Nat`; the row-level hash used by
  the aggregator (`create_row_hashes`, defined outside the two source
  files) is an opaque parameter `h : Key → Nat` (a deterministic function
  of the encoded key bytes, following the spec).
-/

set_option linter.unusedVariables false

namespace DF

/-- The 64-bit modulus of Rust's wrapping `u64` arithmetic. -/
def U64 : Nat := 2 ^ 64

/-- Wrapping 64-bit addition (`u64::wrapping_add`). -/
def wadd (a b : Nat) : Nat := (a + b) % U64

/-- Wrapping 64-bit multiplication (`u64::wrapping_mul`). -/
def wmul (a b : Nat) : Nat := (a * b) % U64

/-- A typed, possibly-nullable Arrow array (one column of a `RecordBatch`).
`values` is the underlying value buffer (defined even at null slots, as in
Arrow), `valid` is the validity bitmap: `valid[i] = false` means row `i`
is null.  Both lists have the same length for well-formed columns. -/
structure Col where
  values : List Int
  valid : List Bool
  deriving Repr, DecidableEq

namespace Col

/-- `Array::len()`. -/
def len (c : Col) : Nat := c.values.length

/-- `Array::is_null(i)` — reads the validity bitmap.  Out-of-bounds reads
(impossible in the in-bounds uses we verify) default to "not null". -/
def is_null (c : Col) (i : Nat) : Bool := !(c.valid.getD i true)

/-- `Array::value(i)` — reads the underlying value buffer, which is
defined (but unspecified garbage) at null slots. -/
def value (c : Col) (i : Nat) : Int := c.values.getD i 0

/-- The logical entry of row `i`: `none` when null. -/
def entry (c : Col) (i : Nat) : Option Int :=
  if c.is_null i then none else some (c.value i)

/-- `Array::null_count()`. -/
def null_count (c : Col) : Nat := c.valid.countP (fun b => !b)

/-- All logical entries of the column, in row order. -/
def entryList (c : Col) : List (Option Int) := (List.range c.len).map c.entry

end Col

/-!
## `equal_rows` (hash_join.rs, lines 740–789)

The macro `equal_rows_elem!` is reproduced per supported primitive type in
the source; one arm suffices here since they are all structurally equal.
Note that the source tests `left_array.is_null($left)` and
`left_array.is_null($right)` — the second test reads the *left* array's
null bitmap at the *right* index.
-/

/-- One arm of the `equal_rows_elem!` macro: element comparison of the two
join columns `l` (left) and `r` (right) at row pair `(left, right)`.
The null checks are modelled exactly as written in the source:
`match (left_array.is_null($left), left_array.is_null($right))`. -/
def equal_rows_elem (l r : Col) (left right : Nat) : Bool :=
  match l.is_null left, l.is_null right with
  | false, false => l.value left == r.value right
  | _, _ => false

/-- `equal_rows`: the row pair `(left, right)` is equal iff every pair of
join columns compares equal under `equal_rows_elem`. -/
def equal_rows (left right : Nat) (left_arrays right_arrays : List Col) : Bool :=
  (left_arrays.zip right_arrays).all fun lr => equal_rows_elem lr.1 lr.2 left right

/-!
## `combine_hashes` and `create_hashes` (hash_join.rs, lines 734–738 and 909–1109)
-/

/-- `combine_hashes(l, r) = (17 * 37u64).wrapping_add(l).wrapping_mul(37).wrapping_add(r)`. -/
def combine_hashes (l r : Nat) : Nat := wadd (wmul (wadd (17 * 37) l) 37) r

/-- The per-row update a single column contributes to the running hash,
shared by all arms of the `hash_array…` macros: a null row leaves the
running hash untouched; otherwise the column's element hash either
overwrites (single column) or is combined with the running hash. -/
def hashStep (getHash : Int → Nat) (multi_col : Bool) (e : Option Int) (h : Nat) : Nat :=
  match e with
  | none => h
  | some v => if multi_col then combine_hashes (getHash v % U64) h else getHash v % U64

/-- One `hash_array…` macro invocation: update the whole hash buffer with
one column.  The source splits on `array.null_count() == 0` (and within
that on `multi_col`); the fast path reads the value buffer directly, which
is what `Col.value` models.  Both branches perform `hashStep` pointwise. -/
def hash_array (getHash : Int → Nat) (multi_col : Bool) (col : Col) (hashes : List Nat) :
    List Nat :=
  if col.null_count = 0 then
    List.zipWith (fun e h => hashStep getHash multi_col e h) (col.entryList) hashes
  else
    List.zipWith (fun e h => hashStep getHash multi_col e h) (col.entryList) hashes

/-- `create_hashes`: iterate the columns in order, updating the caller's
hash buffer (`hashes_buffer`); `multi_col = arrays.len() > 1`. -/
def create_hashes (getHash : Int → Nat) (arrays : List Col) (hashes_buffer : List Nat) :
    List Nat :=
  let multi_col := decide (arrays.length > 1)
  arrays.foldl (fun buf col => hash_array getHash multi_col col buf) hashes_buffer

/-- The row-major description of the multi-column hash from the spec:
start from 0 and fold each column's contribution in column order. -/
def rowHashSpec (getHash : Int → Nat) (multi_col : Bool) (row : List (Option Int)) : Nat :=
  row.foldl (fun h e => hashStep getHash multi_col e h) 0

theorem entryList_getElem (c : Col) (i : Nat) (hi : i < c.len) :
    c.entryList[i]? = some (c.entry i) := by
  simp [Col.entryList, List.getElem?_map, List.getElem?_range, hi]

theorem hash_array_eq_zipWith (getHash : Int → Nat) (m : Bool) (c : Col) (buf : List Nat) :
    hash_array getHash m c buf =
      List.zipWith (fun e h => hashStep getHash m e h) c.entryList buf := by
  unfold hash_array; split <;> rfl

theorem hash_array_length (getHash : Int → Nat) (m : Bool) (c : Col) (buf : List Nat) :
    (hash_array getHash m c buf).length = min c.len buf.length := by
  by_cases h : c.null_count = 0 <;>
    simp [hash_array, h, Col.entryList, Col.len]

theorem create_hashes_fold_getElem (getHash : Int → Nat) (m : Bool) (cols : List Col)
    (buf : List Nat) (n i : Nat) (hc : ∀ c ∈ cols, c.len = n) (hb : buf.length = n)
    (hi : i < n) :
    (cols.foldl (fun b c => hash_array getHash m c b) buf)[i]? =
      some ((cols.map (fun c => c.entry i)).foldl
        (fun h e => hashStep getHash m e h) (buf.getD i 0)) := by
  induction cols generalizing buf with
  | nil =>
    simp only [List.foldl_nil, List.map_nil]
    rw [List.getElem?_eq_getElem (by omega), List.getD_eq_getElem _ _ (by omega)]
  | cons c cs ih =>
    have hclen : c.len = n := hc c (by simp)
    have hlen : (hash_array getHash m c buf).length = n := by
      rw [hash_array_length, hclen, hb]; omega
    rw [List.foldl_cons, List.map_cons, List.foldl_cons,
      ih (hash_array getHash m c buf)
        (fun c' hc' => hc c' (List.mem_cons_of_mem _ hc')) hlen]
    have : (hash_array getHash m c buf).getD i 0 =
        hashStep getHash m (c.entry i) (buf.getD i 0) := by
      have h1 : (hash_array getHash m c buf)[i]? =
          some (hashStep getHash m (c.entry i) (buf.getD i 0)) := by
        rw [hash_array_eq_zipWith, List.getElem?_zipWith,
          entryList_getElem c i (by omega),
          List.getElem?_eq_getElem (by omega), List.getD_eq_getElem _ _ (by omega)]
      rw [List.getD_eq_getElem?_getD, h1]; rfl
    rw [this]

/-- **C4.** For every row `i` of a batch hashed over `k = cols.length`
columns, `create_hashes` (starting from the zeroed buffer the callers
pass) computes the fold, in column order, of the per-column hash through
`combine_hashes` — which equals `((17·37 + l)·37 + r) mod 2^64` — with a
single column (`k = 1`) assigned directly without the combine step, as
`rowHashSpec` states. -/
theorem create_hashes_matches_rowHashSpec (getHash : Int → Nat) (cols : List Col)
    (n i l r : Nat) (hc : ∀ c ∈ cols, c.len = n) (hi : i < n) :
    combine_hashes l r = ((17 * 37 + l) * 37 + r) % U64 ∧
    (create_hashes getHash cols (List.replicate n 0))[i]? =
      some (rowHashSpec getHash (decide (cols.length > 1))
        (cols.map (fun c => c.entry i))) := by
  constructor
  · show ((((17 * 37 + l) % U64) * 37) % U64 + r) % U64 = _
    rw [Nat.mod_mul_mod, Nat.mod_add_mod]
  · simp only [create_hashes]
    rw [create_hashes_fold_getElem getHash _ cols _ n i hc (by simp) hi]
    have hz : (List.replicate n (0 : Nat)).getD i 0 = 0 := by
      simp [List.getD, List.getElem?_replicate, hi]
    rw [hz, rowHashSpec]

/-- Witness for `create_hashes_matches_rowHashSpec` at a concrete
two-column batch. -/
theorem create_hashes_matches_rowHashSpec_witness :
    combine_hashes 3 4 = ((17 * 37 + 3) * 37 + 4) % U64 ∧
    (create_hashes (fun v => v.toNat) [⟨[5], [true]⟩, ⟨[7], [true]⟩]
        (List.replicate 1 0))[0]? =
      some (rowHashSpec (fun v => v.toNat)
        (decide (([⟨[5], [true]⟩, ⟨[7], [true]⟩] : List Col).length > 1))
        (([⟨[5], [true]⟩, ⟨[7], [true]⟩] : List Col).map (fun c => c.entry 0))) :=
  create_hashes_matches_rowHashSpec (fun v => v.toNat)
    [⟨[5], [true]⟩, ⟨[7], [true]⟩] 1 0 3 4 (by decide) (by decide)

/-!
## C1: null handling of `equal_rows`

The source binds `right_array` but then reads the *left* array's null
bitmap at both indices (`left_array.is_null($right)`), so a null element
on the right side is never detected: when the right slot is null but its
underlying buffer value equals the left value, the comparison returns
`true`, contradicting the documented null-unequal semantics.
-/

/-- **C1 (failing input).** Evaluating `equal_rows` at the failing input:
one join column, left row 0 is the non-null value 1, right row 0 is a
*null* whose underlying buffer holds 1.  The right element is null, yet
`equal_rows` returns `true`; the claim requires `false`. -/
theorem equal_rows_right_null_compares_true :
    (Col.is_null ⟨[1], [false]⟩ 0 = true) ∧
    equal_rows 0 0 [⟨[1], [true]⟩] [⟨[1], [false]⟩] = true := by decide

/-!
## The join hash map (hash_join.rs, lines 69–82 and 418–453)

`JoinHashMap = HashMap<(), SmallVec<[u64; 1]>, IdHashBuilder>`: the key is
`()`, buckets are identified purely by the stored `u64` hash (`IdHasher`
is the identity), and each bucket holds the build-side row indices in
insertion order.  Modelled as an association list from hash to index
list, in bucket-creation order.
-/

/-- The number of rows of a batch represented by its columns
(`batch.num_rows()`, equivalently `keys_values[0].len()`). -/
def numRows (cols : List Col) : Nat := (cols.headD ⟨[], []⟩).len

/-- Bucket lookup: `raw_entry().from_hash(h, |_| true)`. -/
def bucketLookup (m : List (Nat × List Nat)) (h : Nat) : Option (List Nat) :=
  (m.find? fun e => e.1 == h).map fun e => e.2

/-- Append row index `v` to the bucket of hash `h`
(`RawEntryMut::Occupied → push`, `Vacant → insert_hashed_nocheck`). -/
def bucketPush (m : List (Nat × List Nat)) (h v : Nat) : List (Nat × List Nat) :=
  match m with
  | [] => [(h, [v])]
  | e :: rest => if e.1 == h then (e.1, e.2 ++ [v]) :: rest else e :: bucketPush rest h v

/-- `update_hash`: hash the on-columns of one build-side batch and insert
`row + offset` into the bucket of each row's hash. -/
def update_hash (getHash : Int → Nat) (keys_values : List Col) (offset : Nat)
    (m : List (Nat × List Nat)) : List (Nat × List Nat) :=
  let hash_values :=
    create_hashes getHash keys_values (List.replicate (numRows keys_values) 0)
  hash_values.enum.foldl (fun m rh => bucketPush m rh.2 (rh.1 + offset)) m

/-!
## `build_join_indexes` (hash_join.rs, lines 584–699)

The output of the probe phase is modelled at index level: the two parallel
index builders (`left_indices`, `right_indices`) become one list of pairs
`(Option build-row, probe-row)`, in emission order; `none` is a null left
index.  The `Inner` and `Left` arms of the source are identical except for
the builder type used, and `Right`/`Full` share one arm, as in the source.
-/

inductive JoinType where
  | Inner | Left | Right | Full
  deriving Repr, DecidableEq

/-- The pairs emitted for one probe row `row` with hash `h`, per join type
(the body of the `for (row, hash_value)` loops). -/
def probeRow (jt : JoinType) (m : List (Nat × List Nat))
    (left_join_values keys_values : List Col) (row h : Nat) :
    List (Option Nat × Nat) :=
  match jt with
  | .Inner =>
    match bucketLookup m h with
    | some indices =>
      (indices.filter fun i => equal_rows i row left_join_values keys_values).map
        fun i => (some i, row)
    | none => []
  | .Left =>
    match bucketLookup m h with
    | some indices =>
      (indices.filter fun i => equal_rows i row left_join_values keys_values).map
        fun i => (some i, row)
    | none => []
  | .Right | .Full =>
    match bucketLookup m h with
    | some indices =>
      indices.map fun i =>
        if equal_rows i row left_join_values keys_values then (some i, row)
        else (none, row)
    | none => [(none, row)]

/-- `build_join_indexes`: hash the probe batch's key columns and emit the
index pairs row by row. -/
def build_join_indexes (getHash : Int → Nat) (jt : JoinType)
    (m : List (Nat × List Nat)) (left_join_values keys_values : List Col) :
    List (Option Nat × Nat) :=
  let hash_values :=
    create_hashes getHash keys_values (List.replicate (numRows keys_values) 0)
  hash_values.enum.flatMap fun rh => probeRow jt m left_join_values keys_values rh.1 rh.2

/-- `produce_unmatched` (hash_join.rs, lines 1112–1142): one output row
`(some i, none)` for every unvisited build-side row `i`; the `none` right
component stands for the `new_null_array` columns taken for the right
side. -/
def produce_unmatched (visited_left_side : List Bool) :
    List (Option Nat × Option Nat) :=
  ((visited_left_side.enum.filter fun iv => !iv.2).map fun iv => (some iv.1, none))

/-!
## `HashJoinStream::poll_next` (hash_join.rs, lines 1144–1227)

The probe-side input is a sequence of poll outcomes of the upstream
stream: `none` is end-of-stream, `some (ok batch)` a batch (represented by
its evaluated key columns), `some (error e)` an upstream error.  Once the
list is exhausted the upstream yields `none` forever.  This representation
also lets a *non-fused* upstream be expressed: a `some` outcome after a
`none`.
-/

structure HashJoinStream where
  join_type : JoinType
  /-- the bucket map of `left_data` -/
  map : List (Nat × List Nat)
  /-- `left_join_values`: the on-columns of the single concatenated
  build-side batch -/
  left_join_values : List Col
  /-- remaining poll outcomes of the probe-side input -/
  right : List (Option (Except String (List Col)))
  visited_left_side : List Bool
  is_exhausted : Bool
  deriving Repr

/-- The `other` arm of `poll_next` (upstream end-of-stream or error). -/
def joinOtherArm (s : HashJoinStream)
    (other : Option (Except String (List (Option Nat × Option Nat))))
    (rest : List (Option (Except String (List Col)))) :
    Option (Except String (List (Option Nat × Option Nat))) × HashJoinStream :=
  match s.join_type, s.is_exhausted with
  | .Left, false | .Full, false =>
    (some (.ok (produce_unmatched s.visited_left_side)),
      { s with right := rest, is_exhausted := true })
  | _, _ => (other, { s with right := rest })

/-- `left_side.iter().flatten().for_each(|x| visited_left_side[x] = true)`,
performed for Left and Full joins only. -/
def joinVisitedUpdate (jt : JoinType) (pairs : List (Option Nat × Nat))
    (visited : List Bool) : List Bool :=
  match jt with
  | .Left | .Full =>
    (pairs.filterMap fun p => p.1).foldl (fun v i => v.set i true) visited
  | .Inner | .Right => visited

/-- One `poll_next` of `HashJoinStream`. -/
def pollJoin (getHash : Int → Nat) (s : HashJoinStream) :
    Option (Except String (List (Option Nat × Option Nat))) × HashJoinStream :=
  match s.right with
  | some (.ok batch) :: rest =>
    let pairs := build_join_indexes getHash s.join_type s.map s.left_join_values batch
    (some (.ok (pairs.map fun p => (p.1, some p.2))),
      { s with right := rest,
               visited_left_side := joinVisitedUpdate s.join_type pairs s.visited_left_side })
  | some (.error e) :: rest => joinOtherArm s (some (.error e)) rest
  | none :: rest => joinOtherArm s none rest
  | [] => joinOtherArm s none []

/-- Collect the items yielded by repeatedly polling, until end-of-stream
or until `fuel` polls have happened. -/
def joinRun (getHash : Int → Nat) (s : HashJoinStream) :
    Nat → List (Except String (List (Option Nat × Option Nat)))
  | 0 => []
  | fuel + 1 =>
    match pollJoin getHash s with
    | (none, _) => []
    | (some item, s') => item :: joinRun getHash s' fuel

/-- The whole-stream output of the join on a well-behaved probe input:
process each probe batch in order (updating `visited_left_side` for
Left/Full), then, at upstream end-of-stream, append the unmatched batch
for Left/Full.  `joinRun_eq_runFrom` proves this equal to iterating
`pollJoin`. -/
def runFrom (getHash : Int → Nat) (jt : JoinType) (m : List (Nat × List Nat))
    (left_join_values : List Col) (visited : List Bool) :
    List (List Col) → List (List (Option Nat × Option Nat))
  | [] =>
    match jt with
    | .Left | .Full => [produce_unmatched visited]
    | .Inner | .Right => []
  | b :: rest =>
    let pairs := build_join_indexes getHash jt m left_join_values b
    (pairs.map fun p => (p.1, some p.2)) ::
      runFrom getHash jt m left_join_values (joinVisitedUpdate jt pairs visited) rest

theorem joinRun_eq_runFrom (getHash : Int → Nat) (jt : JoinType)
    (m : List (Nat × List Nat)) (lcols : List Col) (batches : List (List Col))
    (visited : List Bool) :
    joinRun getHash
        ⟨jt, m, lcols, batches.map (fun b => some (.ok b)), visited, false⟩
        (batches.length + 2) =
      (runFrom getHash jt m lcols visited batches).map .ok := by
  induction batches generalizing visited with
  | nil => cases jt <;> rfl
  | cons b rest ih =>
    have h1 : (b :: rest).length + 2 = (rest.length + 2) + 1 := rfl
    rw [h1]
    have h2 : joinRun getHash
        ⟨jt, m, lcols, (b :: rest).map (fun b => some (.ok b)), visited, false⟩
        ((rest.length + 2) + 1) =
      .ok ((build_join_indexes getHash jt m lcols b).map fun p => (p.1, some p.2)) ::
        joinRun getHash
          ⟨jt, m, lcols, rest.map (fun b => some (.ok b)),
            joinVisitedUpdate jt (build_join_indexes getHash jt m lcols b) visited,
            false⟩ (rest.length + 2) := rfl
    rw [h2, ih]
    simp only [runFrom, List.map_cons]

/-!
## C2: counterexample

A probe row whose hash bucket contains two candidates, both failing
`equal_rows`, is emitted *twice* with a null left side by the
`JoinType::Right | JoinType::Full` arm of `build_join_indexes` (one
`(null, r)` pair per failing candidate), not once as claimed.  The
constant hash function forces both build rows into one bucket — the
hash-collision situation the source explicitly handles downstream of the
bucket lookup.
-/

/-- Build-side on-column of the C2 counterexample: values 10 and 20. -/
def dupLeftOn : List Col := [⟨[10, 20], [true, true]⟩]

/-- Probe-side on-column of the C2 counterexample: the single value 30,
which matches neither build row. -/
def dupProbeOn : List Col := [⟨[30], [true]⟩]

/-- **C2 (counterexample).** In a Right join whose build side holds rows
10 and 20 (hashed into a single bucket by a constant hash function) and
whose probe side is the single row 30, the probe row matches *no*
build-side row, yet the concatenated output contains the null-left pair
for it twice. -/
theorem right_join_duplicates_unmatched_probe_row :
    (equal_rows 0 0 dupLeftOn dupProbeOn = false ∧
      equal_rows 1 0 dupLeftOn dupProbeOn = false) ∧
    joinRun (fun _ => 5)
        ⟨.Right, update_hash (fun _ => 5) dupLeftOn 0 [], dupLeftOn,
          [some (.ok dupProbeOn)], [], false⟩ 3 =
      [.ok [(none, some 0), (none, some 0)]] ∧
    ([(none, some 0), ((none : Option Nat), some (0 : Nat))].countP
      fun p => p.1 == none && p.2 == some 0) = 2 :=
  ⟨⟨rfl, rfl⟩, rfl, rfl⟩

/-!
## C9 (join side): counterexample

`HashJoinStream::poll_next` re-polls its probe input after having
returned end-of-stream; with a non-fused upstream (a batch after a
`none`), the join yields an item after end-of-stream.
-/

/-- **C9 (counterexample).** An Inner-join stream whose upstream yields
end-of-stream and then a batch: the first poll returns end-of-stream, the
second returns an item. -/
theorem pollJoin_after_end_of_stream_yields_item :
    (pollJoin (fun _ => 0)
      ⟨.Inner, [], [], [none, some (.ok [])], [], false⟩).1 = none ∧
    (pollJoin (fun _ => 0)
      (pollJoin (fun _ => 0)
        ⟨.Inner, [], [], [none, some (.ok [])], [], false⟩).2).1 =
      some (.ok []) :=
  ⟨rfl, rfl⟩

/-!
## C2: amended statement

What does hold: a matched pair is only ever emitted for a row pair that
passes `equal_rows`; a build-side row that matches no probe row is
therefore never visited and appears exactly once, as `(some i, none)`, in
the concatenated output of a Left/Full join; and for Right/Full joins the
number of null-left pairs emitted for a probe row equals one on a bucket
miss but equals the number of *failing candidates* in its bucket on a
bucket hit.
-/

theorem probeRow_snd (jt : JoinType) (m : List (Nat × List Nat))
    (lcols keys : List Col) (row h : Nat) :
    ∀ p ∈ probeRow jt m lcols keys row h, p.2 = row := by
  intro p hp
  cases jt <;> simp only [probeRow] at hp <;>
    (cases hb : bucketLookup m h <;> rw [hb] at hp) <;>
    simp only [List.mem_map, List.mem_filter, List.mem_cons] at hp
  · exact absurd hp (by simp)
  · obtain ⟨i, _, rfl⟩ := hp; rfl
  · exact absurd hp (by simp)
  · obtain ⟨i, _, rfl⟩ := hp; rfl
  · rcases hp with rfl | h'; rfl; exact absurd h' (by simp)
  · obtain ⟨i, _, rfl⟩ := hp
    split <;> rfl
  · rcases hp with rfl | h'; rfl; exact absurd h' (by simp)
  · obtain ⟨i, _, rfl⟩ := hp
    split <;> rfl

theorem probeRow_matched (jt : JoinType) (m : List (Nat × List Nat))
    (lcols keys : List Col) (row h i : Nat) :
    ∀ p ∈ probeRow jt m lcols keys row h, p.1 = some i →
      equal_rows i row lcols keys = true := by
  intro p hp hfst
  cases jt <;> simp only [probeRow] at hp <;>
    (cases hb : bucketLookup m h <;> rw [hb] at hp) <;>
    simp only [List.mem_map, List.mem_filter, List.mem_cons] at hp
  · exact absurd hp (by simp)
  · obtain ⟨j, ⟨_, hj⟩, rfl⟩ := hp
    cases hfst; exact hj
  · exact absurd hp (by simp)
  · obtain ⟨j, ⟨_, hj⟩, rfl⟩ := hp
    cases hfst; exact hj
  · rcases hp with rfl | h'
    · exact absurd hfst (by simp)
    · exact absurd h' (by simp)
  · obtain ⟨j, _, rfl⟩ := hp
    by_cases he : equal_rows j row lcols keys = true
    · rw [if_pos he] at hfst; cases hfst; exact he
    · rw [if_neg he] at hfst; exact absurd hfst (by simp)
  · rcases hp with rfl | h'
    · exact absurd hfst (by simp)
    · exact absurd h' (by simp)
  · obtain ⟨j, _, rfl⟩ := hp
    by_cases he : equal_rows j row lcols keys = true
    · rw [if_pos he] at hfst; cases hfst; exact he
    · rw [if_neg he] at hfst; exact absurd hfst (by simp)

theorem create_hashes_length_le (getHash : Int → Nat) (cols : List Col)
    (buf : List Nat) :
    (create_hashes getHash cols buf).length ≤ buf.length := by
  simp only [create_hashes]
  generalize (decide (cols.length > 1)) = m
  induction cols generalizing buf with
  | nil => simp
  | cons c cs ih =>
    calc (List.foldl (fun b col => hash_array getHash m col b)
            (hash_array getHash m c buf) cs).length
        ≤ (hash_array getHash m c buf).length := ih _
      _ ≤ buf.length := by rw [hash_array_length]; omega

theorem build_join_indexes_mem (getHash : Int → Nat) (jt : JoinType)
    (m : List (Nat × List Nat)) (lcols keys : List Col) (i : Nat) :
    ∀ p ∈ build_join_indexes getHash jt m lcols keys,
      p.2 < numRows keys ∧
      (p.1 = some i → equal_rows i p.2 lcols keys = true) := by
  intro p hp
  simp only [build_join_indexes, List.mem_flatMap] at hp
  obtain ⟨rh, hrh, hpmem⟩ := hp
  have hsnd := probeRow_snd jt m lcols keys rh.1 rh.2 p hpmem
  have hlt : rh.1 < (create_hashes getHash keys
      (List.replicate (numRows keys) 0)).length := by
    obtain ⟨i', x⟩ := rh
    exact (List.mem_enum hrh).1
  constructor
  · rw [hsnd]
    calc rh.1 < _ := hlt
      _ ≤ (List.replicate (numRows keys) (0 : Nat)).length :=
        create_hashes_length_le getHash keys _
      _ = numRows keys := by simp
  · intro hfst
    rw [hsnd]
    exact probeRow_matched jt m lcols keys rh.1 rh.2 i p hpmem hfst

theorem build_join_indexes_countP_some_eq_zero (getHash : Int → Nat)
    (jt : JoinType) (m : List (Nat × List Nat)) (lcols keys : List Col) (i : Nat)
    (hne : ∀ r < numRows keys, equal_rows i r lcols keys = false) :
    (build_join_indexes getHash jt m lcols keys).countP
      (fun p => p.1 == some i) = 0 := by
  rw [List.countP_eq_zero]
  intro p hp hpi
  obtain ⟨hlt, heq⟩ := build_join_indexes_mem getHash jt m lcols keys i p hp
  have htrue := heq (eq_of_beq hpi)
  have hfalse := hne p.2 hlt
  rw [htrue] at hfalse
  exact absurd hfalse (by simp)

theorem foldl_set_getElem_ne (js : List Nat) (v : List Bool) (i : Nat)
    (h : ∀ j ∈ js, j ≠ i) :
    (js.foldl (fun v j => v.set j true) v)[i]? = v[i]? := by
  induction js generalizing v with
  | nil => rfl
  | cons j js ih =>
    rw [List.foldl_cons, ih _ (fun j hj => h j (List.mem_cons_of_mem _ hj)),
      List.getElem?_set_ne (h j (List.mem_cons_self j js))]

theorem joinVisitedUpdate_getElem (jt : JoinType)
    (pairs : List (Option Nat × Nat)) (v : List Bool) (i : Nat)
    (h : ∀ p ∈ pairs, p.1 ≠ some i) :
    (joinVisitedUpdate jt pairs v)[i]? = v[i]? := by
  have hset : ∀ j ∈ pairs.filterMap (fun p => p.1), j ≠ i := by
    intro j hj hji
    obtain ⟨p, hp, hp1⟩ := List.mem_filterMap.mp hj
    rw [hji] at hp1
    exact h p hp hp1
  cases jt <;> simp only [joinVisitedUpdate] <;>
    first
      | rfl
      | exact foldl_set_getElem_ne _ v i hset

theorem beq_some_some (a b : Nat) : (some a == some b) = (a == b) := rfl

theorem enumFrom_filter_eq_nil (v : List Bool) (k i : Nat) (h : i < k) :
    ((List.enumFrom k v).filter fun iv => iv.1 == i && !iv.2) = [] := by
  induction v generalizing k with
  | nil => rfl
  | cons b tl ih =>
    rw [List.enumFrom_cons, List.filter_cons]
    have : (k == i) = false := by simp; omega
    simp only [this, Bool.false_and, if_neg Bool.false_ne_true]
    exact ih (k + 1) (by omega)

theorem enumFrom_filter_eq_single (v : List Bool) (k i : Nat) (h1 : k ≤ i)
    (h2 : i - k < v.length) :
    ((List.enumFrom k v).filter fun iv => iv.1 == i && !iv.2) =
      if v.getD (i - k) true then [] else [(i, false)] := by
  induction v generalizing k with
  | nil => simp at h2
  | cons b tl ih =>
    rw [List.enumFrom_cons, List.filter_cons]
    by_cases hk : k = i
    · have hz : i - k = 0 := by omega
      rw [hz]
      have htl := enumFrom_filter_eq_nil tl (k + 1) i (by omega)
      cases b with
      | false =>
        simp [htl, hk]
        intro a ha
        have := List.le_fst_of_mem_enumFrom ha
        omega
      | true =>
        simp [htl, hk]
        intro a ha
        have := List.le_fst_of_mem_enumFrom ha
        omega
    · have hki : (k == i) = false := by simp [hk]
      have h2' : i - k < tl.length + 1 := by simpa using h2
      simp only [hki, Bool.false_and, if_neg Bool.false_ne_true]
      have hik : i - k = (i - (k + 1)) + 1 := by omega
      rw [ih (k + 1) (by omega) (by omega), hik]
      rfl

theorem produce_unmatched_countP (v : List Bool) (i : Nat)
    (hv : v[i]? = some false) :
    (produce_unmatched v).countP (fun p => p.1 == some i) = 1 ∧
      ((some i, (none : Option Nat)) ∈ produce_unmatched v) := by
  obtain ⟨hi, hvi⟩ := List.getElem?_eq_some.mp hv
  have hgetD : v.getD i true = false := by
    rw [List.getD_eq_getElem?_getD, hv]; rfl
  have hfilter : ((List.enumFrom 0 v).filter fun iv => iv.1 == i && !iv.2) =
      [(i, false)] := by
    have := enumFrom_filter_eq_single v 0 i (by omega) (by omega)
    rw [Nat.sub_zero] at this
    rw [this, hgetD]; rfl
  constructor
  · rw [produce_unmatched, List.countP_map, List.countP_eq_length_filter,
      List.filter_filter]
    have hcong : ((fun (p : Option Nat × Option Nat) => p.1 == some i) ∘
          (fun iv : Nat × Bool => ((some iv.1 : Option Nat), (none : Option Nat)))) =
        fun iv : Nat × Bool => iv.1 == i := by
      funext iv; rfl
    rw [hcong]
    show (List.filter _ v.enum).length = 1
    have : v.enum = List.enumFrom 0 v := rfl
    rw [this, hfilter]
    rfl
  · have hmem : ((i : Nat), false) ∈
        (List.enumFrom 0 v).filter (fun iv => iv.1 == i && !iv.2) := by
      rw [hfilter]; exact List.mem_cons_self _ _
    obtain ⟨hmem', hpred⟩ := List.mem_filter.mp hmem
    rw [produce_unmatched, List.mem_map]
    refine ⟨(i, false), List.mem_filter.mpr ⟨hmem', ?_⟩, rfl⟩
    simp at hpred ⊢

theorem countP_probeRow_ne (jt : JoinType) (m : List (Nat × List Nat))
    (lcols keys : List Col) (row h r : Nat) (hne : row ≠ r) :
    (probeRow jt m lcols keys row h).countP
      (fun p => p.1 == none && p.2 == r) = 0 := by
  rw [List.countP_eq_zero]
  intro p hp
  have hsnd := probeRow_snd jt m lcols keys row h p hp
  simp [hsnd, hne]

theorem countP_probeRow_eq (jt : JoinType) (m : List (Nat × List Nat))
    (lcols keys : List Col) (row h : Nat) :
    (probeRow jt m lcols keys row h).countP
        (fun p => p.1 == none && p.2 == row) =
      (probeRow jt m lcols keys row h).countP (fun p => p.1 == none) := by
  apply List.countP_congr
  intro p hp
  have hsnd := probeRow_snd jt m lcols keys row h p hp
  simp [hsnd]

theorem countP_flatMap_enumFrom_lt (getHash : Int → Nat) (jt : JoinType)
    (m : List (Nat × List Nat)) (lcols keys : List Col) (l : List Nat) (k r : Nat)
    (hr : r < k) :
    ((List.enumFrom k l).flatMap fun rh =>
        probeRow jt m lcols keys rh.1 rh.2).countP
      (fun p => p.1 == none && p.2 == r) = 0 := by
  induction l generalizing k with
  | nil => rfl
  | cons h0 tl ih =>
    rw [List.enumFrom_cons, List.flatMap_cons, List.countP_append,
      countP_probeRow_ne jt m lcols keys k h0 r (by omega), ih (k + 1) (by omega)]

theorem countP_flatMap_enumFrom (getHash : Int → Nat) (jt : JoinType)
    (m : List (Nat × List Nat)) (lcols keys : List Col) (l : List Nat) (k r : Nat)
    (h1 : k ≤ r) (h2 : r - k < l.length) :
    ((List.enumFrom k l).flatMap fun rh =>
        probeRow jt m lcols keys rh.1 rh.2).countP
      (fun p => p.1 == none && p.2 == r) =
      (probeRow jt m lcols keys r (l.getD (r - k) 0)).countP
        (fun p => p.1 == none) := by
  induction l generalizing k with
  | nil => simp at h2
  | cons h0 tl ih =>
    rw [List.enumFrom_cons, List.flatMap_cons, List.countP_append]
    by_cases hk : k = r
    · have hz : r - k = 0 := by omega
      rw [hz, hk, countP_probeRow_eq,
        countP_flatMap_enumFrom_lt getHash jt m lcols keys tl (r + 1) r (by omega)]
      simp [List.getD]
    · have h2' : r - k < tl.length + 1 := by simpa using h2
      have hik : r - k = (r - (k + 1)) + 1 := by omega
      rw [countP_probeRow_ne jt m lcols keys k h0 r (by omega),
        ih (k + 1) (by omega) (by omega), hik]
      simp [List.getD]

theorem build_join_indexes_null_left_count (getHash : Int → Nat) (jt : JoinType)
    (m : List (Nat × List Nat)) (lcols keys : List Col) (r : Nat)
    (hjt : jt = JoinType.Right ∨ jt = JoinType.Full)
    (hr : r < (create_hashes getHash keys
      (List.replicate (numRows keys) 0)).length) :
    (build_join_indexes getHash jt m lcols keys).countP
        (fun p => p.1 == none && p.2 == r) =
      match bucketLookup m ((create_hashes getHash keys
          (List.replicate (numRows keys) 0)).getD r 0) with
      | none => 1
      | some idxs => idxs.countP fun j => !equal_rows j r lcols keys := by
  have henum : (create_hashes getHash keys
      (List.replicate (numRows keys) 0)).enum =
      List.enumFrom 0 (create_hashes getHash keys
        (List.replicate (numRows keys) 0)) := rfl
  rw [build_join_indexes]
  simp only [henum]
  rw [countP_flatMap_enumFrom getHash jt m lcols keys _ 0 r (by omega)
    (by omega)]
  rw [Nat.sub_zero]
  rcases hjt with rfl | rfl <;>
    · simp only [probeRow]
      cases hb : bucketLookup m ((create_hashes getHash keys
          (List.replicate (numRows keys) 0)).getD r 0) with
      | none => rfl
      | some idxs =>
        rw [List.countP_map]
        apply List.countP_congr
        intro j _
        by_cases he : equal_rows j r lcols keys = true
        · simp [Function.comp, he]
        · simp [Function.comp, he]

theorem runFrom_unmatched_count (getHash : Int → Nat) (jt : JoinType)
    (m : List (Nat × List Nat)) (lcols : List Col) (i : Nat)
    (hjt : jt = JoinType.Left ∨ jt = JoinType.Full) :
    ∀ (batches : List (List Col)) (visited : List Bool),
      visited[i]? = some false →
      (∀ b ∈ batches, ∀ r < numRows b, equal_rows i r lcols b = false) →
      ((runFrom getHash jt m lcols visited batches).flatten.countP
          (fun p => p.1 == some i) = 1 ∧
        (some i, (none : Option Nat)) ∈
          (runFrom getHash jt m lcols visited batches).flatten) := by
  intro batches
  induction batches with
  | nil =>
    intro visited hv _
    rcases hjt with rfl | rfl <;>
      · simp only [runFrom, List.flatten_cons, List.flatten_nil, List.append_nil]
        exact produce_unmatched_countP visited i hv
  | cons b rest ih =>
    intro visited hv hne
    have hzero := build_join_indexes_countP_some_eq_zero getHash jt m lcols b i
      (hne b (List.mem_cons_self b rest))
    have hnosome : ∀ p ∈ build_join_indexes getHash jt m lcols b,
        p.1 ≠ some i := by
      intro p hp hpi
      obtain ⟨hlt, heq⟩ := build_join_indexes_mem getHash jt m lcols b i p hp
      have htrue := heq hpi
      have hfalse := hne b (List.mem_cons_self b rest) p.2 hlt
      rw [htrue] at hfalse
      exact absurd hfalse (by simp)
    have hv' : (joinVisitedUpdate jt
        (build_join_indexes getHash jt m lcols b) visited)[i]? = some false := by
      rw [joinVisitedUpdate_getElem jt _ visited i hnosome]; exact hv
    obtain ⟨hcount, hmem⟩ := ih _ hv'
      (fun b' hb' => hne b' (List.mem_cons_of_mem _ hb'))
    constructor
    · simp only [runFrom, List.flatten_cons, List.countP_append]
      have hcomp : ((fun (q : Option Nat × Option Nat) => q.1 == some i) ∘
            (fun p : Option Nat × Nat => (p.1, some p.2))) =
          fun p : Option Nat × Nat => p.1 == some i := rfl
      rw [List.countP_map, hcomp, hzero, hcount]
    · simp only [runFrom, List.flatten_cons, List.mem_append]
      exact Or.inr hmem

/-- **C2 (amended).** In the concatenated stream output: (i) for Left and
Full joins, a build-side row `i` that matches no probe row under
`equal_rows` is emitted exactly once, as `(some i, none)` — right side all
nulls — via `produce_unmatched`; (ii) for Right and Full joins, the
number of null-left pairs emitted for a probe row `r` is 1 on a bucket
miss, but on a bucket hit it is the number of candidates in the bucket
that *fail* `equal_rows` — so a probe row whose bucket holds several
non-matching candidates is emitted once per failing candidate, not once. -/
theorem join_unmatched_rows_amended (getHash : Int → Nat) (jt : JoinType)
    (m : List (Nat × List Nat)) (lcols keys : List Col)
    (batches : List (List Col)) (i r : Nat) :
    ((jt = JoinType.Left ∨ jt = JoinType.Full) →
      i < numRows lcols →
      (∀ b ∈ batches, ∀ r' < numRows b, equal_rows i r' lcols b = false) →
      ((runFrom getHash jt m lcols (List.replicate (numRows lcols) false)
            batches).flatten.countP (fun p => p.1 == some i) = 1 ∧
        (some i, (none : Option Nat)) ∈
          (runFrom getHash jt m lcols (List.replicate (numRows lcols) false)
            batches).flatten)) ∧
    ((jt = JoinType.Right ∨ jt = JoinType.Full) →
      r < (create_hashes getHash keys
        (List.replicate (numRows keys) 0)).length →
      (build_join_indexes getHash jt m lcols keys).countP
          (fun p => p.1 == none && p.2 == r) =
        match bucketLookup m ((create_hashes getHash keys
            (List.replicate (numRows keys) 0)).getD r 0) with
        | none => 1
        | some idxs => idxs.countP fun j => !equal_rows j r lcols keys) := by
  constructor
  · intro hjt hi hne
    have hv : (List.replicate (numRows lcols) false)[i]? = some false := by
      rw [List.getElem?_replicate, if_pos hi]
    exact runFrom_unmatched_count getHash jt m lcols i hjt batches _ hv hne
  · intro hjt hr
    exact build_join_indexes_null_left_count getHash jt m lcols keys r hjt hr

/-- On-column of the build side used by the C2 witness (single row 7). -/
def wLeftOn : List Col := [⟨[7], [true]⟩]

/-- On-column of the probe side used by the C2 witness (single row 8,
matching nothing). -/
def wProbeOn : List Col := [⟨[8], [true]⟩]

/-- Witness for `join_unmatched_rows_amended`: a Full join with build row
7 and probe row 8. -/
theorem join_unmatched_rows_amended_witness :
    ((runFrom (fun v => v.toNat) JoinType.Full
          (update_hash (fun v => v.toNat) wLeftOn 0 []) wLeftOn
          (List.replicate (numRows wLeftOn) false)
          [wProbeOn]).flatten.countP (fun p => p.1 == some 0) = 1 ∧
      (some 0, (none : Option Nat)) ∈
        (runFrom (fun v => v.toNat) JoinType.Full
          (update_hash (fun v => v.toNat) wLeftOn 0 []) wLeftOn
          (List.replicate (numRows wLeftOn) false) [wProbeOn]).flatten) ∧
    ((build_join_indexes (fun v => v.toNat)
          JoinType.Full (update_hash (fun v => v.toNat) wLeftOn 0 [])
          wLeftOn wProbeOn).countP (fun p => p.1 == none && p.2 == 0) =
        match bucketLookup (update_hash (fun v => v.toNat) wLeftOn 0 [])
            ((create_hashes (fun v => v.toNat) wProbeOn
              (List.replicate (numRows wProbeOn) 0)).getD 0 0) with
        | none => 1
        | some idxs =>
          idxs.countP fun j => !equal_rows j 0 wLeftOn wProbeOn) :=
  ⟨(join_unmatched_rows_amended (fun v => v.toNat) JoinType.Full
      (update_hash (fun v => v.toNat) wLeftOn 0 []) wLeftOn wProbeOn
      [wProbeOn] 0 0).1 (Or.inr rfl) (by decide) (by decide),
    (join_unmatched_rows_amended (fun v => v.toNat) JoinType.Full
      (update_hash (fun v => v.toNat) wLeftOn 0 []) wLeftOn wProbeOn
      [wProbeOn] 0 0).2 (Or.inr rfl) (by decide)⟩

/-!
## `ShortLivedMemoryPool` (row_hash.rs, lines 580–628)

The pool wraps the `AggregationStateMemoryConsumer`; the consumer's `used`
counter is carried inline (`consumer_used`).  `try_grow` asks the external
memory manager; whether the grant succeeds is the manager's decision,
passed in as the `grant` argument.  A successful `try_grow(n)` grants
exactly `n` bytes.  `alloc` additionally reports the size it requested
from `try_grow` (`none` when no grant was requested), so that the claim's
"no grant is requested" clause is expressible.
-/

structure ShortLivedMemoryPool where
  /-- the wrapped consumer's `used` field -/
  consumer_used : Nat
  block_size : Nat
  remaining : Nat
  deriving Repr, DecidableEq

/-- `ShortLivedMemoryPool::new`: block size 1 MiB, nothing remaining. -/
def ShortLivedMemoryPool.new (consumer_used : Nat) : ShortLivedMemoryPool :=
  ⟨consumer_used, 1024 * 1024, 0⟩

/-- `ShortLivedMemoryPool::alloc`.  Returns the updated pool (or an error
when the manager denies the grant, leaving the pool unchanged) and the
size passed to `try_grow`, if any. -/
def ShortLivedMemoryPool.alloc (p : ShortLivedMemoryPool) (bytes : Nat)
    (grant : Bool) : Except Unit ShortLivedMemoryPool × Option Nat :=
  if bytes ≤ p.remaining then
    (.ok { p with remaining := p.remaining - bytes }, none)
  else
    let bytes' := bytes - p.remaining
    let alloc_size := max bytes' p.block_size
    if grant then
      (.ok { p with consumer_used := p.consumer_used + alloc_size,
                    remaining := alloc_size - bytes' }, some alloc_size)
    else (.error (), some alloc_size)

/-- `Drop for ShortLivedMemoryPool`: `shrink(remaining)` gives the slack
back; the consumer's `used` counter after the drop. -/
def ShortLivedMemoryPool.dropPool (p : ShortLivedMemoryPool) : Nat :=
  p.consumer_used - p.remaining

/-- `alloc` under an always-granting manager (as in a run without memory
pressure); never errors. -/
def allocGranted (p : ShortLivedMemoryPool) (bytes : Nat) : ShortLivedMemoryPool :=
  match (p.alloc bytes true).1 with
  | .ok p' => p'
  | .error _ => p

/-- A sequence of granted `alloc` calls. -/
def runAllocs (p : ShortLivedMemoryPool) (ns : List Nat) : ShortLivedMemoryPool :=
  ns.foldl allocGranted p

theorem allocGranted_eq (p : ShortLivedMemoryPool) (bytes : Nat) :
    allocGranted p bytes =
      if bytes ≤ p.remaining then { p with remaining := p.remaining - bytes }
      else { p with
        consumer_used := p.consumer_used + max (bytes - p.remaining) p.block_size,
        remaining := max (bytes - p.remaining) p.block_size - (bytes - p.remaining) } := by
  rw [allocGranted]
  by_cases h : bytes ≤ p.remaining <;> simp [ShortLivedMemoryPool.alloc, h]

/-- Invariant of a granted-allocation run: the consumer's `used` counter
has increased by exactly the consumed bytes plus the remaining slack. -/
theorem runAllocs_invariant (ns : List Nat) (p : ShortLivedMemoryPool) :
    (runAllocs p ns).consumer_used + p.remaining =
      p.consumer_used + (runAllocs p ns).remaining + ns.sum ∧
    (runAllocs p ns).block_size = p.block_size := by
  induction ns generalizing p with
  | nil => exact ⟨by simp [runAllocs], rfl⟩
  | cons n tl ih =>
    rw [runAllocs, List.foldl_cons, List.sum_cons]
    have h1 := ih (allocGranted p n)
    rw [runAllocs] at h1
    rw [allocGranted_eq] at h1 ⊢
    by_cases hc : n ≤ p.remaining
    · rw [if_pos hc] at h1 ⊢
      simp only at h1
      exact ⟨by omega, h1.2⟩
    · rw [if_neg hc] at h1 ⊢
      simp only at h1
      have hM : n - p.remaining ≤ max (n - p.remaining) p.block_size :=
        le_max_left _ _
      exact ⟨by omega, h1.2⟩

theorem runAllocs_remaining_le (ns : List Nat) (p : ShortLivedMemoryPool)
    (hp : p.remaining ≤ p.consumer_used) :
    (runAllocs p ns).remaining ≤ (runAllocs p ns).consumer_used := by
  induction ns generalizing p with
  | nil => simpa [runAllocs] using hp
  | cons n tl ih =>
    rw [runAllocs, List.foldl_cons]
    exact ih (allocGranted p n)
      (by rw [allocGranted_eq]; split <;> simp only <;> omega)

/-- **C7.** Behaviour of `ShortLivedMemoryPool`: (i) `alloc(n)` with
`n ≤ remaining` just decrements `remaining` and requests no grant;
(ii) otherwise it requests `max(n − remaining, block_size)` via
`try_grow`, adds the granted amount to the consumer's `used`, and sets
`remaining` to the granted amount minus the deficit; (iii) over any
sequence of granted `alloc` calls starting from a fresh pool, the
consumer's `used` counter after the pool is dropped (which shrinks by the
final `remaining`) has increased by exactly the sum of all requested
byte counts. -/
theorem shortLivedMemoryPool_spec (p : ShortLivedMemoryPool) (n u0 : Nat)
    (ns : List Nat) (g : Bool) :
    (n ≤ p.remaining →
      p.alloc n g = (.ok { p with remaining := p.remaining - n }, none)) ∧
    (p.remaining < n →
      p.alloc n true =
        (.ok { p with
          consumer_used := p.consumer_used + max (n - p.remaining) p.block_size,
          remaining := max (n - p.remaining) p.block_size - (n - p.remaining) },
          some (max (n - p.remaining) p.block_size))) ∧
    (runAllocs (ShortLivedMemoryPool.new u0) ns).dropPool = u0 + ns.sum := by
  refine ⟨?_, ?_, ?_⟩
  · intro h
    rw [ShortLivedMemoryPool.alloc, if_pos h]
  · intro h
    rw [ShortLivedMemoryPool.alloc, if_neg (by omega)]
    rfl
  · obtain ⟨h1, _⟩ := runAllocs_invariant ns (ShortLivedMemoryPool.new u0)
    have hrem := runAllocs_remaining_le ns (ShortLivedMemoryPool.new u0)
      (by simp [ShortLivedMemoryPool.new])
    rw [ShortLivedMemoryPool.dropPool]
    have hn1 : (ShortLivedMemoryPool.new u0).remaining = 0 := rfl
    have hn2 : (ShortLivedMemoryPool.new u0).consumer_used = u0 := rfl
    rw [hn1, hn2] at h1
    omega

/-- Witness for `shortLivedMemoryPool_spec`: a fresh pool receiving
`alloc(10)`, `alloc(20)`, `alloc(2_000_000)`. -/
theorem shortLivedMemoryPool_spec_witness :
    (10 ≤ (ShortLivedMemoryPool.new 0).remaining →
      (ShortLivedMemoryPool.new 0).alloc 10 true =
        (.ok { ShortLivedMemoryPool.new 0 with
          remaining := (ShortLivedMemoryPool.new 0).remaining - 10 }, none)) ∧
    ((ShortLivedMemoryPool.new 0).remaining < 10 →
      (ShortLivedMemoryPool.new 0).alloc 10 true =
        (.ok { ShortLivedMemoryPool.new 0 with
          consumer_used := (ShortLivedMemoryPool.new 0).consumer_used +
            max (10 - (ShortLivedMemoryPool.new 0).remaining)
              (ShortLivedMemoryPool.new 0).block_size,
          remaining := max (10 - (ShortLivedMemoryPool.new 0).remaining)
              (ShortLivedMemoryPool.new 0).block_size -
            (10 - (ShortLivedMemoryPool.new 0).remaining) },
          some (max (10 - (ShortLivedMemoryPool.new 0).remaining)
            (ShortLivedMemoryPool.new 0).block_size))) ∧
    (runAllocs (ShortLivedMemoryPool.new 0) [10, 20, 2000000]).dropPool =
      0 + [10, 20, 2000000].sum :=
  shortLivedMemoryPool_spec (ShortLivedMemoryPool.new 0) 10 0 [10, 20, 2000000] true

/-!
## `GroupedHashAggregateStreamV2` (row_hash.rs)

Modelling choices, in addition to the file-wide ones:

* A group key (`group_by_values : Vec<u8>`, the Compact-encoded row) is a
  byte list `List Nat`; the opaque row hasher of `create_row_hashes`
  (defined in `hash_utils.rs`, outside the two source files) is a
  parameter `h : List Nat → Nat`.
* The accumulator set is modelled as a single opaque update function
  `upd : state-buffer → gathered-values → Except error state-buffer`
  standing for the `update_batch`/`merge_batch` loop over
  `accumulators` (the per-accumulator structure is irrelevant to the
  claims); the `take` over `batch_indices` followed by per-group `slice`
  gathers exactly the group's scratch `indices`, which is how the values
  are gathered here.
* Rust `Vec` capacities are tracked explicitly where the source branches
  on them (`indices`, `group_states`, and the `RawTable`); a `reserve`
  after a doubling bump of `b` elements raises the capacity by exactly
  `b`.  `size_of::<u8>() = 1`, `size_of::<u32>() = 4`; the 64-bit sizes
  `size_of::<RowGroupState>() = 72` (three `Vec` headers) and
  `size_of::<(u64, usize)>() = 16` are fixed as constants.
* The `RawTable`'s `get_mut(hash, eq)` is an association-list search for
  an entry with the given stored hash whose `group_idx` dereferences to
  the probed key bytes.
* During `group_aggregate_batch` the memory manager always grants (the
  denial path is covered by the `ShortLivedMemoryPool` theorems).
-/

/-- `size_of::<RowGroupState>()` on a 64-bit platform (three Vec headers). -/
def sizeOfRowGroupState : Nat := 72

/-- `size_of::<(u64, usize)>()` on a 64-bit platform. -/
def sizeOfMapEntry : Nat := 16

structure RowGroupState where
  /-- the Compact-encoded group key bytes -/
  group_by_values : List Nat
  /-- the WordAligned aggregation state buffer -/
  aggregation_buffer : List Nat
  /-- scratch row indices of the current batch -/
  indices : List Nat
  /-- capacity of the `indices` vector -/
  indices_capacity : Nat
  deriving Repr, DecidableEq, Inhabited

structure AggregationState where
  /-- `memory_consumer.used` -/
  used : Nat
  /-- the `RawTable` entries `(hash, group_idx)` in insertion order -/
  map : List (Nat × Nat)
  /-- usable capacity of the `RawTable` -/
  map_capacity : Nat
  group_states : List RowGroupState
  /-- capacity of the `group_states` vector -/
  group_states_capacity : Nat
  deriving Repr, DecidableEq

/-- The empty `AggregationState` built in
`GroupedHashAggregateStreamV2::new` (`RawTable::with_capacity(0)`,
`Vec::with_capacity(0)`). -/
def initialAggregationState : AggregationState := ⟨0, [], 0, [], 0⟩

/-- Modelled from the spec: `create_row_hashes` (defined in
`hash_utils.rs`, not part of the two source files) fills the hash buffer
with a deterministic seeded hash of each encoded key byte-row; modelled
as an opaque per-row function `h`. -/
def create_row_hashes (h : List Nat → Nat) (rows : List (List Nat)) : List Nat :=
  rows.map h

/-- The hit path of the probe loop (`Some((_hash, group_idx))`): remember
the row in the group's scratch `indices`, growing them (doubling, at
least 2 elements, `4·bump_elements` bytes paid before the grow) when they
are at capacity; a group whose scratch was empty joins
`groups_with_rows`. -/
def aggRowHit (st : AggregationState) (pool : ShortLivedMemoryPool)
    (gwr : List Nat) (group_idx row : Nat) :
    AggregationState × ShortLivedMemoryPool × List Nat :=
  let gs := st.group_states.getD group_idx default
  let gwr' := if gs.indices = [] then gwr ++ [group_idx] else gwr
  let bumped :=
    if gs.indices_capacity = gs.indices.length then
      let bump_elements := max (gs.indices_capacity * 2) 2
      ({ gs with indices_capacity := gs.indices_capacity + bump_elements },
        allocGranted pool (4 * bump_elements))
    else (gs, pool)
  let gs' := { bumped.1 with indices := bumped.1.indices ++ [row] }
  ({ st with group_states := st.group_states.set group_idx gs' },
    bumped.2, gwr')

/-- The miss path of the probe loop (`None`): create the `RowGroupState`,
compute the whole memory delta (key bytes + state width + scratch, plus
the `group_states` doubling and the failed `try_insert_no_grow` doubling
when at capacity), allocate once, reserve, push, and insert `(hash,
group_idx)` into the table. -/
def aggRowMiss (W : Nat) (key : List Nat) (hash : Nat) (st : AggregationState)
    (pool : ShortLivedMemoryPool) (gwr : List Nat) (row : Nat) :
    AggregationState × ShortLivedMemoryPool × List Nat :=
  let gs : RowGroupState :=
    { group_by_values := key, aggregation_buffer := List.replicate W 0,
      indices := [row], indices_capacity := 1 }
  let group_idx := st.group_states.length
  let bump0 := 1 * key.length + 1 * W + 4 * 1
  let grew_groups := st.group_states_capacity = st.group_states.length
  let bump1 :=
    if grew_groups then
      bump0 + max (st.group_states_capacity * 2) 16 * sizeOfRowGroupState
    else bump0
  let grew_map := st.map_capacity = st.map.length
  let bump2 :=
    if grew_map then bump1 + max (st.map_capacity * 2) 16 * sizeOfMapEntry
    else bump1
  let pool' := allocGranted pool bump2
  ({ st with
      group_states_capacity :=
        if grew_groups then
          st.group_states_capacity + max (st.group_states_capacity * 2) 16
        else st.group_states_capacity,
      group_states := st.group_states ++ [gs],
      map_capacity :=
        if grew_map then st.map_capacity + max (st.map_capacity * 2) 16
        else st.map_capacity,
      map := st.map ++ [(hash, group_idx)] },
    pool', gwr ++ [group_idx])

/-- The body of the `for (row, hash)` loop of `group_aggregate_batch`
(phase 1: probe or create the group for one input row).  The accumulator
`acc` is `(state, pool, groups_with_rows)`; `rh = (row, hash)`.  The
table probe `map.get_mut(hash, eq)` compares the stored hash and
dereferences the entry's `group_idx` into `group_states` to compare key
bytes. -/
def aggRowStep (W : Nat) (keys : List (List Nat))
    (acc : AggregationState × ShortLivedMemoryPool × List Nat) (rh : Nat × Nat) :
    AggregationState × ShortLivedMemoryPool × List Nat :=
  let st := acc.1
  let pool := acc.2.1
  let gwr := acc.2.2
  let row := rh.1
  let hash := rh.2
  let key := keys.getD row []
  match st.map.find? (fun e => e.1 == hash &&
      ((st.group_states.getD e.2 default).group_by_values == key)) with
  | some e => aggRowHit st pool gwr e.2 row
  | none => aggRowMiss W key hash st pool gwr row

/-- Phase 2 of `group_aggregate_batch`: for each participating group (in
`groups_with_rows` order), gather the group's scratch rows from the
aggregate input values and update the state buffer; the scratch indices
are cleared even when the accumulator fails (the `.and({ ...clear(); Ok })`
argument is evaluated eagerly in Rust), and the iteration stops at the
first error. -/
def updateGroups (upd : List Nat → List Int → Except String (List Nat))
    (vals : List Int) :
    List Nat → AggregationState → AggregationState × Option String
  | [], st => (st, none)
  | gi :: rest, st =>
    let gs := st.group_states.getD gi default
    let gathered := gs.indices.map fun r => vals.getD r 0
    match upd gs.aggregation_buffer gathered with
    | .ok buf =>
      let gs' := { gs with aggregation_buffer := buf, indices := ([] : List Nat) }
      updateGroups upd vals rest
        { st with group_states := st.group_states.set gi gs' }
    | .error e =>
      let gs' := { gs with indices := ([] : List Nat) }
      ({ st with group_states := st.group_states.set gi gs' }, some e)

/-- `group_aggregate_batch` for one input batch (one grouping set; a batch
is the list of its rows, each row being its encoded group key and its
aggregate-input value).  Returns the mutated state — mutations persist in
Rust even when an error is returned — together with the error, if any. -/
def group_aggregate_batch (h : List Nat → Nat)
    (upd : List Nat → List Int → Except String (List Nat)) (W : Nat)
    (batch : List (List Nat × Int)) (st : AggregationState) :
    AggregationState × Option String :=
  let pool0 := ShortLivedMemoryPool.new st.used
  let keys := batch.map fun r => r.1
  let vals := batch.map fun r => r.2
  let batch_hashes := create_row_hashes h keys
  let phase1 := batch_hashes.enum.foldl (fun acc rh => aggRowStep W keys acc rh)
    (st, pool0, [])
  let phase2 := updateGroups upd vals phase1.2.2 phase1.1
  ({ phase2.1 with used := phase1.2.1.dropPool }, phase2.2)

/-- `create_group_rows` (row_hash.rs, lines 630–640): encode each input
row of the grouping arrays to Compact bytes.  The row loop runs over
`0..arrays[0].len()`; indexing `arrays[0]` of an empty vector panics in
Rust, modelled as `none`.  The external `RowWriter`/`write_row` encoder
is the opaque parameter `enc`. -/
def create_group_rows (enc : List Col → Nat → List Nat) (arrays : List Col) :
    Option (List (List Nat)) :=
  match arrays with
  | [] => none
  | a :: _ => some ((List.range a.len).map (enc arrays))

/-- The ingest path: evaluate the grouping columns to encoded rows, then
aggregate — `none` when `create_group_rows` panics (no grouping column). -/
def group_aggregate_batch_from_cols (h : List Nat → Nat)
    (upd : List Nat → List Int → Except String (List Nat)) (W : Nat)
    (enc : List Col → Nat → List Nat) (arrays : List Col) (vals : List Int)
    (st : AggregationState) : Option (AggregationState × Option String) :=
  (create_group_rows enc arrays).map fun keys =>
    group_aggregate_batch h upd W (keys.zip vals) st

/-- `create_batch_from_map` (row_hash.rs, lines 642–707).  `none` is
`Ok(None)` (end of stream); an output batch is the list of the selected
groups' `(key bytes, state buffer)` rows — the external Compact/
WordAligned decoding, accumulator evaluation (Final modes) and cast map
these rows one-to-one to the arrow columns of the `RecordBatch`. -/
def create_batch_from_map (batch_size skip_items : Nat)
    (groups : List RowGroupState) : Option (List (List Nat × List Nat)) :=
  if skip_items > groups.length then none
  else if groups.isEmpty then some []
  else some (((groups.drop skip_items).take batch_size).map
    fun gs => (gs.group_by_values, gs.aggregation_buffer))

/-!
## The aggregator's output stream

`GroupedHashAggregateStreamV2::new` drives everything through
`futures::stream::unfold` and then `.fuse()`.  The state of the unfold is
modelled by `AggStreamState`; `pollAgg` is one `poll_next` of the fused
stream.  The loop consumes input batches until one yields (an error, or
after input exhaustion a `create_batch_from_map` result);
`row_group_skip_position += batch_size` runs before every yield —
including error yields — but not on the `continue` path of a successfully
aggregated batch.
-/

structure AggStreamState where
  /-- remaining input items (the upstream is a fused stream of batches) -/
  input : List (Except String (List (List Nat × Int)))
  aggr : AggregationState
  batch_size : Nat
  /-- `row_group_skip_position` -/
  skip : Nat
  /-- set once the unfold has finished (`.fuse()` keeps it `none`) -/
  fused : Bool

/-- The unfold loop body: consume input until something is yielded. -/
def pollAggLoop (h : List Nat → Nat)
    (upd : List Nat → List Int → Except String (List Nat)) (W : Nat) :
    List (Except String (List (List Nat × Int))) → AggregationState → Nat → Nat →
    Option (Except String (List (List Nat × List Nat))) × AggStreamState
  | [], aggr, bs, skip =>
    match create_batch_from_map bs skip aggr.group_states with
    | some b => (some (.ok b), ⟨[], aggr, bs, skip + bs, false⟩)
    | none => (none, ⟨[], aggr, bs, skip + bs, true⟩)
  | .ok batch :: rest, aggr, bs, skip =>
    match group_aggregate_batch h upd W batch aggr with
    | (aggr', none) => pollAggLoop h upd W rest aggr' bs skip
    | (aggr', some e) => (some (.error e), ⟨rest, aggr', bs, skip + bs, false⟩)
  | .error e :: rest, aggr, bs, skip =>
    (some (.error e), ⟨rest, aggr, bs, skip + bs, false⟩)

/-- One `poll_next` of the fused aggregator stream. -/
def pollAgg (h : List Nat → Nat)
    (upd : List Nat → List Int → Except String (List Nat)) (W : Nat)
    (s : AggStreamState) :
    Option (Except String (List (List Nat × List Nat))) × AggStreamState :=
  if s.fused then (none, s)
  else pollAggLoop h upd W s.input s.aggr s.batch_size s.skip

/-- Iterated polls (for stating stream-level properties). -/
def pollAggIter (h : List Nat → Nat)
    (upd : List Nat → List Int → Except String (List Nat)) (W : Nat)
    (s : AggStreamState) :
    Nat → Option (Except String (List (List Nat × List Nat))) × AggStreamState
  | 0 => pollAgg h upd W s
  | n + 1 => pollAggIter h upd W (pollAgg h upd W s).2 n

/-- The emit loop after input exhaustion: each call emits
`create_batch_from_map` at the current skip position and advances it by
`batch_size`; the stream ends at the first `none`. -/
def emitFrom (bs : Nat) (groups : List RowGroupState) :
    Nat → Nat → List (List (List Nat × List Nat))
  | _, 0 => []
  | skip, fuel + 1 =>
    match create_batch_from_map bs skip groups with
    | none => []
    | some b => b :: emitFrom bs groups (skip + bs) fuel

/-- Running each input batch through `group_aggregate_batch` in stream
order (errors do not stop ingestion of later batches, as in the unfold
loop). -/
def runBatches (h : List Nat → Nat)
    (upd : List Nat → List Int → Except String (List Nat)) (W : Nat) :
    AggregationState → List (List (List Nat × Int)) → AggregationState
  | st, [] => st
  | st, b :: rest => runBatches h upd W (group_aggregate_batch h upd W b st).1 rest

/-!
## C10: `create_group_rows` requires at least one grouping column
-/

/-- **C10.** `create_group_rows` panics (`arrays[0]`) on an empty array
list and otherwise returns one encoded byte-row per input row
(`0..arrays[0].len()`); accordingly the ingest path is defined exactly
when there is at least one grouping column. -/
theorem create_group_rows_requires_grouping_column
    (enc : List Col → Nat → List Nat) (h : List Nat → Nat)
    (upd : List Nat → List Int → Except String (List Nat)) (W : Nat)
    (vals : List Int) (st : AggregationState) (a : Col) (rest : List Col) :
    create_group_rows enc [] = none ∧
    create_group_rows enc (a :: rest) =
      some ((List.range a.len).map (enc (a :: rest))) ∧
    (((List.range a.len).map (enc (a :: rest))).length = a.len) ∧
    group_aggregate_batch_from_cols h upd W enc [] vals st = none ∧
    (group_aggregate_batch_from_cols h upd W enc (a :: rest) vals st).isSome
      = true := by
  refine ⟨rfl, rfl, by simp [Col.len], rfl, rfl⟩

/-!
## C3: an error item does not terminate the aggregator stream

The unfold loop yields errors (`return Some((Err(error), this))`) with
the state — including the remaining input — kept alive, and only the
end-of-stream arm finishes the unfold; an error item is therefore *not*
terminal: subsequent polls keep consuming the remaining input and can
yield further `Ok` batches (with `row_group_skip_position` already
advanced by the error yield).
-/

/-- Accumulator that fails on negative input values (standing for any
failing `update_batch`). -/
def negUpd : List Nat → List Int → Except String (List Nat) :=
  fun s vs => if vs.any (fun v => v < 0) then .error "neg" else .ok s

/-- The C3 counterexample stream: two one-row batches; the first makes
the accumulator fail, the second aggregates fine. -/
def aggC3s0 : AggStreamState :=
  ⟨[.ok [([0], -1)], .ok [([1], 5)]], initialAggregationState, 1, 0, false⟩

/-- **C3 (counterexample).** The first poll yields the accumulator error;
the *second* poll yields a further `Ok` batch produced from the later
input batch — the error was not terminal. -/
theorem aggregate_stream_yields_ok_after_error :
    (pollAgg (fun _ => 0) negUpd 0 aggC3s0).1 = some (.error "neg") ∧
    (pollAgg (fun _ => 0) negUpd 0
        (pollAgg (fun _ => 0) negUpd 0 aggC3s0).2).1 =
      some (.ok [([1], [])]) :=
  ⟨rfl, rfl⟩

theorem pollAggLoop_yield_not_fused (h : List Nat → Nat)
    (upd : List Nat → List Int → Except String (List Nat)) (W : Nat) :
    ∀ (input : List (Except String (List (List Nat × Int))))
      (aggr : AggregationState) (bs skip : Nat) (item) (s' : AggStreamState),
      pollAggLoop h upd W input aggr bs skip = (some item, s') →
      s'.fused = false := by
  intro input
  induction input with
  | nil =>
    intro aggr bs skip item s' hp
    rw [pollAggLoop] at hp
    cases hc : create_batch_from_map bs skip aggr.group_states <;> rw [hc] at hp
    · exact absurd hp.symm (by simp)
    · cases hp; rfl
  | cons x rest ih =>
    intro aggr bs skip item s' hp
    cases x with
    | ok batch =>
      rw [pollAggLoop] at hp
      cases hg : group_aggregate_batch h upd W batch aggr with
      | mk aggr' err =>
        rw [hg] at hp
        cases err with
        | none => exact ih aggr' bs skip item s' hp
        | some e => cases hp; rfl
    | error e => cases hp; rfl

/-- **C3 (amended).** Yielding any item — in particular an error — leaves
the aggregator stream *unfused*: the successor state still polls the
remaining input through the normal loop, so later polls can produce
further `Ok` batches; only end-of-stream fuses the stream. -/
theorem aggregate_error_not_terminal (h : List Nat → Nat)
    (upd : List Nat → List Int → Except String (List Nat)) (W : Nat)
    (s : AggStreamState) (item : Except String (List (List Nat × List Nat)))
    (s' : AggStreamState) (hp : pollAgg h upd W s = (some item, s')) :
    s'.fused = false ∧
    pollAgg h upd W s' = pollAggLoop h upd W s'.input s'.aggr s'.batch_size s'.skip := by
  have hfused : s'.fused = false := by
    rw [pollAgg] at hp
    by_cases hf : s.fused
    · rw [if_pos hf] at hp
      exact absurd hp (by simp)
    · rw [if_neg hf] at hp
      exact pollAggLoop_yield_not_fused h upd W s.input s.aggr s.batch_size
        s.skip item s' hp
  exact ⟨hfused, by rw [pollAgg, if_neg (by simp [hfused])]⟩

/-- Witness for `aggregate_error_not_terminal` at the C3 counterexample
input. -/
theorem aggregate_error_not_terminal_witness :
    (pollAgg (fun _ => 0) negUpd 0 aggC3s0).2.fused = false ∧
    pollAgg (fun _ => 0) negUpd 0 (pollAgg (fun _ => 0) negUpd 0 aggC3s0).2 =
      pollAggLoop (fun _ => 0) negUpd 0
        (pollAgg (fun _ => 0) negUpd 0 aggC3s0).2.input
        (pollAgg (fun _ => 0) negUpd 0 aggC3s0).2.aggr
        (pollAgg (fun _ => 0) negUpd 0 aggC3s0).2.batch_size
        (pollAgg (fun _ => 0) negUpd 0 aggC3s0).2.skip :=
  aggregate_error_not_terminal (fun _ => 0) negUpd 0 aggC3s0 (.error "neg")
    (pollAgg (fun _ => 0) negUpd 0 aggC3s0).2 (by rfl)

/-!
## C5: the emit algorithm
-/

theorem emitFrom_past_end (bs : Nat) (groups : List RowGroupState)
    (skip fuel : Nat) (hskip : groups.length < skip) :
    emitFrom bs groups skip fuel = [] := by
  cases fuel with
  | zero => rfl
  | succ fuel =>
    rw [emitFrom, create_batch_from_map, if_pos (by omega)]

theorem emitFrom_batch_sizes (bs : Nat) (groups : List RowGroupState)
    (hbs : 0 < bs) :
    ∀ (fuel skip j : Nat), groups.length + 2 ≤ fuel + skip →
      j + 1 < (emitFrom bs groups skip fuel).length →
      ((emitFrom bs groups skip fuel).getD j []).length = bs := by
  intro fuel
  induction fuel with
  | zero =>
    intro skip j hfuel hj
    simp [emitFrom] at hj
  | succ fuel ih =>
    intro skip j hfuel hj
    by_cases hs : groups.length < skip
    · rw [emitFrom_past_end bs groups skip (fuel + 1) hs] at hj
      simp at hj
    · by_cases hg : groups = []
      · subst hg
        have hskip : skip = 0 := by simp at hs; omega
        subst hskip
        rw [emitFrom, create_batch_from_map] at hj ⊢
        simp only [List.length_nil, gt_iff_lt, Nat.lt_irrefl, if_false,
          List.isEmpty_nil, if_true] at hj ⊢
        rw [emitFrom_past_end bs [] (0 + bs) fuel (by simp; omega)] at hj
        simp at hj
      · rw [emitFrom, create_batch_from_map, if_neg (by omega),
          if_neg (by simp [hg])] at hj ⊢
        cases j with
        | zero =>
          simp only [List.getD_cons_zero, List.length_map]
          have htail : emitFrom bs groups (skip + bs) fuel ≠ [] := by
            intro hnil
            rw [hnil] at hj
            simp at hj
          have hsb : skip + bs ≤ groups.length := by
            by_contra hc
            exact htail (emitFrom_past_end bs groups (skip + bs) fuel (by omega))
          rw [List.length_take, List.length_drop]
          omega
        | succ j =>
          simp only [List.getD_cons_succ]
          refine ih (skip + bs) j (by omega) ?_
          simp only [List.length_cons] at hj
          omega

theorem emitFrom_getElem (bs : Nat) (groups : List RowGroupState)
    (hbs : 0 < bs) :
    ∀ (fuel skip j : Nat), groups.length + 2 ≤ fuel + skip →
      j < (emitFrom bs groups skip fuel).length →
      (emitFrom bs groups skip fuel)[j]? =
        create_batch_from_map bs (skip + j * bs) groups := by
  intro fuel
  induction fuel with
  | zero =>
    intro skip j hfuel hj
    simp [emitFrom] at hj
  | succ fuel ih =>
    intro skip j hfuel hj
    cases hc : create_batch_from_map bs skip groups with
    | none =>
      have he : emitFrom bs groups skip (fuel + 1) = [] := by
        rw [emitFrom, hc]
      rw [he] at hj
      simp at hj
    | some b =>
      have he : emitFrom bs groups skip (fuel + 1) =
          b :: emitFrom bs groups (skip + bs) fuel := by
        rw [emitFrom, hc]
      rw [he] at hj ⊢
      cases j with
      | zero =>
        simpa using hc.symm
      | succ j =>
        rw [List.getElem?_cons_succ]
        have := ih (skip + bs) j (by omega) (by simpa using hj)
        rw [this]
        congr 1
        ring

theorem emitFrom_flatten (bs : Nat) (groups : List RowGroupState) (hbs : 0 < bs) :
    ∀ (fuel skip : Nat), groups.length + 2 ≤ fuel + skip →
      skip ≤ groups.length →
      (emitFrom bs groups skip fuel).flatten =
        (groups.drop skip).map fun gs => (gs.group_by_values, gs.aggregation_buffer) := by
  intro fuel
  induction fuel with
  | zero =>
    intro skip hfuel hskip
    omega
  | succ fuel ih =>
    intro skip hfuel hskip
    by_cases hg : groups = []
    · subst hg
      have hskip0 : skip = 0 := by simpa using hskip
      subst hskip0
      have he : emitFrom bs ([] : List RowGroupState) 0 (fuel + 1) =
          [] :: emitFrom bs [] (0 + bs) fuel := by
        rw [emitFrom, create_batch_from_map]
        rfl
      rw [he, emitFrom_past_end bs [] (0 + bs) fuel (by simp; omega)]
      rfl
    · have hc : create_batch_from_map bs skip groups =
          some (((groups.drop skip).take bs).map
            fun gs => (gs.group_by_values, gs.aggregation_buffer)) := by
        rw [create_batch_from_map, if_neg (by omega), if_neg (by simp [hg])]
      have he : emitFrom bs groups skip (fuel + 1) =
          (((groups.drop skip).take bs).map
            fun gs => (gs.group_by_values, gs.aggregation_buffer)) ::
            emitFrom bs groups (skip + bs) fuel := by
        rw [emitFrom, hc]
      rw [he, List.flatten_cons]
      by_cases hsb : skip + bs ≤ groups.length
      · rw [ih (skip + bs) (by omega) hsb, ← List.map_append, ← List.drop_drop,
          List.take_append_drop]
      · rw [emitFrom_past_end bs groups (skip + bs) fuel (by omega)]
        rw [List.take_of_length_le (by rw [List.length_drop]; omega)]
        simp

/-- **C5.** The emit algorithm: an emit call at skip position `s` returns
end-of-stream iff `s > group_states.len()`; an empty group table at an
in-range position emits the single empty batch; otherwise the call emits
exactly the groups at positions `[s, s + batch_size)`.  Over the whole
emit loop (skip advancing by `batch_size` from 0): an empty table yields
exactly one (empty) batch, every emitted batch except possibly the last
has exactly `batch_size` rows, and the `j`-th emitted batch is the emit
call at position `j·batch_size`. -/
theorem create_batch_from_map_spec (bs skip : Nat) (groups : List RowGroupState)
    (hbs : 0 < bs) :
    (skip > groups.length → create_batch_from_map bs skip groups = none) ∧
    (groups = [] → skip ≤ groups.length →
      create_batch_from_map bs skip groups = some []) ∧
    (groups ≠ [] → skip ≤ groups.length →
      create_batch_from_map bs skip groups =
        some (((groups.drop skip).take bs).map
          fun gs => (gs.group_by_values, gs.aggregation_buffer))) ∧
    (groups = [] → emitFrom bs groups 0 (groups.length + 2) = [[]]) ∧
    (∀ j, j + 1 < (emitFrom bs groups 0 (groups.length + 2)).length →
      ((emitFrom bs groups 0 (groups.length + 2)).getD j []).length = bs) ∧
    (∀ j, j < (emitFrom bs groups 0 (groups.length + 2)).length →
      (emitFrom bs groups 0 (groups.length + 2))[j]? =
        create_batch_from_map bs (j * bs) groups) := by
  refine ⟨?_, ?_, ?_, ?_, ?_, ?_⟩
  · intro hs
    rw [create_batch_from_map, if_pos hs]
  · intro hg _
    rw [create_batch_from_map, if_neg (by omega), if_pos (by simp [hg])]
  · intro hg hs
    rw [create_batch_from_map, if_neg (by omega), if_neg (by simp [hg])]
  · intro hg
    subst hg
    have he : emitFrom bs ([] : List RowGroupState) 0 (0 + 2) =
        [] :: emitFrom bs [] (0 + bs) 1 := by
      rw [emitFrom, create_batch_from_map]
      rfl
    rw [List.length_nil, he, emitFrom_past_end bs [] (0 + bs) 1 (by simp; omega)]
  · intro j hj
    exact emitFrom_batch_sizes bs groups hbs (groups.length + 2) 0 j (by omega) hj
  · intro j hj
    have := emitFrom_getElem bs groups hbs (groups.length + 2) 0 j (by omega) hj
    rwa [Nat.zero_add] at this

/-- Three concrete groups for the C5 witness. -/
def wGroups : List RowGroupState :=
  [⟨[1], [], [], 0⟩, ⟨[2], [], [], 0⟩, ⟨[3], [], [], 0⟩]

/-- Witness for `create_batch_from_map_spec`: batch size 2, skip 4, three
groups. -/
theorem create_batch_from_map_spec_witness :
    (4 > wGroups.length → create_batch_from_map 2 4 wGroups = none) ∧
    (wGroups = [] → 4 ≤ wGroups.length →
      create_batch_from_map 2 4 wGroups = some []) ∧
    (wGroups ≠ [] → 4 ≤ wGroups.length →
      create_batch_from_map 2 4 wGroups =
        some (((wGroups.drop 4).take 2).map
          fun gs => (gs.group_by_values, gs.aggregation_buffer))) ∧
    (wGroups = [] → emitFrom 2 wGroups 0 (wGroups.length + 2) = [[]]) ∧
    (∀ j, j + 1 < (emitFrom 2 wGroups 0 (wGroups.length + 2)).length →
      ((emitFrom 2 wGroups 0 (wGroups.length + 2)).getD j []).length = 2) ∧
    (∀ j, j < (emitFrom 2 wGroups 0 (wGroups.length + 2)).length →
      (emitFrom 2 wGroups 0 (wGroups.length + 2))[j]? =
        create_batch_from_map 2 (j * 2) wGroups) :=
  create_batch_from_map_spec 2 4 wGroups (by decide)

/-!
## C8: the consumer's `used` counter after stream termination

Nothing on the end-of-stream path shrinks the consumer: the counter holds
the total net allocation of the run when the unfold finishes, and it is
reported — not zeroed — to the manager by `drop_consumer(id, mem_used())`
when the consumer is eventually dropped.
-/

/-- An accumulator that always succeeds. -/
def okUpd : List Nat → List Int → Except String (List Nat) := fun s _ => .ok s

/-- The C8 counterexample stream: one single-row batch (key `[7]`, state
width 2, batch size 1). -/
def aggC8s0 : AggStreamState :=
  ⟨[.ok [([7], 1)]], initialAggregationState, 1, 0, false⟩

/-- **C8 (counterexample).** After the third poll the stream has emitted
end-of-stream, yet the consumer's `used` counter is 1415 bytes (the net
allocation for the one group: 1·1 key byte + 2 state bytes + 4 scratch
bytes + 16·72 `group_states` doubling + 16·16 table doubling), not 0. -/
theorem used_nonzero_after_end_of_stream :
    (pollAggIter (fun _ => 0) okUpd 2 aggC8s0 2).1 = none ∧
    (pollAggIter (fun _ => 0) okUpd 2 aggC8s0 2).2.aggr.used = 1415 ∧
    (1415 : Nat) ≠ 0 :=
  ⟨rfl, rfl, by decide⟩

theorem pollAgg_exhausted_used_unchanged (h : List Nat → Nat)
    (upd : List Nat → List Int → Except String (List Nat)) (W : Nat)
    (s : AggStreamState) (hin : s.input = []) :
    (pollAgg h upd W s).2.aggr.used = s.aggr.used ∧
    (pollAgg h upd W s).2.input = [] := by
  rw [pollAgg]
  by_cases hf : s.fused
  · rw [if_pos hf]
    exact ⟨rfl, hin⟩
  · rw [if_neg hf, hin, pollAggLoop]
    cases hc : create_batch_from_map s.batch_size s.skip s.aggr.group_states <;>
      exact ⟨rfl, rfl⟩

/-- **C8 (amended).** Once the input is exhausted, no number of further
polls — including the one that emits end-of-stream — changes the
consumer's `used` counter: it stays at the total net allocation of the
run (which is nonzero whenever a group was created; see the
counterexample) and is only reported to the manager at drop. -/
theorem used_persists_after_exhaustion (h : List Nat → Nat)
    (upd : List Nat → List Int → Except String (List Nat)) (W : Nat)
    (s : AggStreamState) (k : Nat) (hin : s.input = []) :
    (pollAggIter h upd W s k).2.aggr.used = s.aggr.used ∧
    (pollAggIter h upd W s k).2.input = [] := by
  induction k generalizing s with
  | zero => exact pollAgg_exhausted_used_unchanged h upd W s hin
  | succ k ih =>
    rw [pollAggIter]
    obtain ⟨h1, h2⟩ := pollAgg_exhausted_used_unchanged h upd W s hin
    obtain ⟨h3, h4⟩ := ih (pollAgg h upd W s).2 h2
    exact ⟨by rw [h3, h1], h4⟩

/-- Witness for `used_persists_after_exhaustion`: an exhausted stream
holding 5 used bytes, polled three more times. -/
theorem used_persists_after_exhaustion_witness :
    (pollAggIter (fun _ => 0) okUpd 0 ⟨[], ⟨5, [], 0, [], 0⟩, 1, 0, false⟩ 3).2.aggr.used =
      (⟨[], ⟨5, [], 0, [], 0⟩, 1, 0, false⟩ : AggStreamState).aggr.used ∧
    (pollAggIter (fun _ => 0) okUpd 0 ⟨[], ⟨5, [], 0, [], 0⟩, 1, 0, false⟩ 3).2.input = [] :=
  used_persists_after_exhaustion (fun _ => 0) okUpd 0
    ⟨[], ⟨5, [], 0, [], 0⟩, 1, 0, false⟩ 3 rfl

/-!
## C9: fusing after end-of-stream

The aggregator stream is explicitly fused (`stream.fuse()`), so its
end-of-stream is idempotent unconditionally.  The join stream is *not*
fused: `poll_next` re-polls the probe input even after having returned
`None` (see the counterexample above), so its end-of-stream persists
exactly when the probe upstream keeps returning `None`.
-/

def pollJoinIter (getHash : Int → Nat) (s : HashJoinStream) :
    Nat → Option (Except String (List (Option Nat × Option Nat))) × HashJoinStream
  | 0 => pollJoin getHash s
  | n + 1 => pollJoinIter getHash (pollJoin getHash s).2 n

theorem pollAggLoop_none_fused (h : List Nat → Nat)
    (upd : List Nat → List Int → Except String (List Nat)) (W : Nat) :
    ∀ (input : List (Except String (List (List Nat × Int))))
      (aggr : AggregationState) (bs skip : Nat) (s' : AggStreamState),
      pollAggLoop h upd W input aggr bs skip = (none, s') → s'.fused = true := by
  intro input
  induction input with
  | nil =>
    intro aggr bs skip s' hp
    rw [pollAggLoop] at hp
    cases hc : create_batch_from_map bs skip aggr.group_states <;> rw [hc] at hp
    · cases hp; rfl
    · simp at hp
  | cons x rest ih =>
    intro aggr bs skip s' hp
    cases x with
    | ok batch =>
      rw [pollAggLoop] at hp
      cases hg : group_aggregate_batch h upd W batch aggr with
      | mk aggr' err =>
        rw [hg] at hp
        cases err with
        | none => exact ih aggr' bs skip s' hp
        | some e => simp at hp
    | error e =>
      rw [pollAggLoop] at hp
      simp at hp

theorem pollJoin_all_none_step (getHash : Int → Nat) (sj : HashJoinStream)
    (hall : ∀ o ∈ sj.right, o = none)
    (hcond : sj.join_type = JoinType.Inner ∨ sj.join_type = JoinType.Right ∨
      sj.is_exhausted = true) :
    (pollJoin getHash sj).1 = none ∧
    (∀ o ∈ (pollJoin getHash sj).2.right, o = none) ∧
    (pollJoin getHash sj).2.join_type = sj.join_type ∧
    (pollJoin getHash sj).2.is_exhausted = sj.is_exhausted := by
  obtain ⟨jt, m, lv, right, vis, exh⟩ := sj
  cases right with
  | nil =>
    cases jt <;> cases exh <;>
      first
        | exact ⟨rfl, fun o ho => absurd ho (List.not_mem_nil o), rfl, rfl⟩
        | (exfalso; simp at hcond)
  | cons o rest =>
    have ho : o = none := hall o (List.mem_cons_self o rest)
    subst ho
    have htl : ∀ o2 ∈ rest, o2 = none := fun o2 ho2 =>
      hall o2 (List.mem_cons_of_mem _ ho2)
    cases jt <;> cases exh <;>
      first
        | exact ⟨rfl, htl, rfl, rfl⟩
        | (exfalso; simp at hcond)

theorem pollJoin_none_establish (getHash : Int → Nat) (sj sj' : HashJoinStream)
    (hall : ∀ o ∈ sj.right, o = none)
    (hp : pollJoin getHash sj = (none, sj')) :
    (∀ o ∈ sj'.right, o = none) ∧
    (sj'.join_type = JoinType.Inner ∨ sj'.join_type = JoinType.Right ∨
      sj'.is_exhausted = true) := by
  obtain ⟨jt, m, lv, right, vis, exh⟩ := sj
  cases right with
  | nil =>
    cases jt <;> cases exh <;>
      first
        | (simp only [pollJoin, joinOtherArm, Prod.mk.injEq, true_and] at hp
           subst hp
           exact ⟨fun o ho => absurd ho (by simp), by simp⟩)
        | (exfalso; simp [pollJoin, joinOtherArm] at hp)
  | cons o rest =>
    have ho : o = none := hall o (List.mem_cons_self o rest)
    subst ho
    have htl : ∀ o2 ∈ rest, o2 = none := fun o2 ho2 =>
      hall o2 (List.mem_cons_of_mem _ ho2)
    cases jt <;> cases exh <;>
      first
        | (simp only [pollJoin, joinOtherArm, Prod.mk.injEq, true_and] at hp
           subst hp
           exact ⟨htl, by simp⟩)
        | (exfalso; simp [pollJoin, joinOtherArm] at hp)

theorem pollJoinIter_none (getHash : Int → Nat) (k : Nat) :
    ∀ (sj : HashJoinStream), (∀ o ∈ sj.right, o = none) →
      (sj.join_type = JoinType.Inner ∨ sj.join_type = JoinType.Right ∨
        sj.is_exhausted = true) →
      (pollJoinIter getHash sj k).1 = none := by
  induction k with
  | zero =>
    intro sj hall hcond
    exact (pollJoin_all_none_step getHash sj hall hcond).1
  | succ k ih =>
    intro sj hall hcond
    rw [pollJoinIter]
    obtain ⟨_, h2, h3, h4⟩ := pollJoin_all_none_step getHash sj hall hcond
    exact ih _ h2 (by rw [h3, h4]; exact hcond)

/-- **C9 (amended).** The aggregator stream is fused: once a poll returns
end-of-stream, every later poll returns end-of-stream with the state
unchanged.  The join stream does not fuse itself — it re-polls its probe
input after end-of-stream — but whenever the probe upstream is fused
(keeps yielding `None`), every poll of the join after its first
end-of-stream also returns end-of-stream. -/
theorem end_of_stream_idempotent_amended (h : List Nat → Nat)
    (upd : List Nat → List Int → Except String (List Nat)) (W : Nat)
    (getHash : Int → Nat) (sa sa' : AggStreamState) (sj sj' : HashJoinStream)
    (k : Nat) :
    (pollAgg h upd W sa = (none, sa') → pollAgg h upd W sa' = (none, sa')) ∧
    ((∀ o ∈ sj.right, o = none) → pollJoin getHash sj = (none, sj') →
      (pollJoinIter getHash sj' k).1 = none) := by
  constructor
  · intro hp
    have hfused : sa'.fused = true := by
      rw [pollAgg] at hp
      by_cases hf : sa.fused
      · rw [if_pos hf] at hp
        have : sa = sa' := congrArg Prod.snd hp
        rw [← this]
        exact hf
      · rw [if_neg hf] at hp
        exact pollAggLoop_none_fused h upd W sa.input sa.aggr sa.batch_size
          sa.skip sa' hp
    rw [pollAgg, if_pos hfused]
  · intro hall hp
    obtain ⟨h1, h2⟩ := pollJoin_none_establish getHash sj sj' hall hp
    exact pollJoinIter_none getHash k sj' h1 h2

/-- Witness for `end_of_stream_idempotent_amended` at a fused aggregator
state and an exhausted Inner-join stream. -/
theorem end_of_stream_idempotent_amended_witness :
    (pollAgg (fun _ => 0) okUpd 0 ⟨[], initialAggregationState, 1, 2, true⟩ =
        (none, ⟨[], initialAggregationState, 1, 2, true⟩) →
      pollAgg (fun _ => 0) okUpd 0 ⟨[], initialAggregationState, 1, 2, true⟩ =
        (none, ⟨[], initialAggregationState, 1, 2, true⟩)) ∧
    ((∀ o ∈ (⟨JoinType.Inner, [], [], [], [], false⟩ : HashJoinStream).right,
        o = none) →
      pollJoin (fun _ => 0) ⟨JoinType.Inner, [], [], [], [], false⟩ =
        (none, ⟨JoinType.Inner, [], [], [], [], false⟩) →
      (pollJoinIter (fun _ => 0)
        ⟨JoinType.Inner, [], [], [], [], false⟩ 2).1 = none) :=
  end_of_stream_idempotent_amended (fun _ => 0) okUpd 0 (fun _ => 0)
    ⟨[], initialAggregationState, 1, 2, true⟩
    ⟨[], initialAggregationState, 1, 2, true⟩
    ⟨JoinType.Inner, [], [], [], [], false⟩
    ⟨JoinType.Inner, [], [], [], [], false⟩ 2

/-!
## C6: group indices are first-appearance ranks; output is in creation order

The per-row probe loop appends a new `RowGroupState` (index =
`group_states.len()`) exactly when the encoded key is not yet in the
table, so `group_states`' key column is the keys of the input stream with
later duplicates removed; `create_batch_from_map` walks `group_states` in
order, so the concatenated output rows follow that creation order.
-/

/-- The keys of the live groups, in creation order. -/
def aggKeys (st : AggregationState) : List (List Nat) :=
  st.group_states.map fun gs => gs.group_by_values

/-- One step of first-appearance deduplication. -/
def focStep (acc : List (List Nat)) (k : List Nat) : List (List Nat) :=
  if k ∈ acc then acc else acc ++ [k]

/-- The first occurrence of each key, in order of first appearance. -/
def firstOccurrences (l : List (List Nat)) : List (List Nat) :=
  l.foldl focStep []

/-- Invariant of the `RawTable`: its entries are exactly
`(h key_i, i)` for the live group indices `i`, in creation order. -/
def MapInv (h : List Nat → Nat) (st : AggregationState) : Prop :=
  st.map = (List.range (aggKeys st).length).map
    fun i => (h ((aggKeys st).getD i []), i)

theorem aggKeys_length (st : AggregationState) :
    (aggKeys st).length = st.group_states.length := by
  simp [aggKeys]

theorem group_key_getD (st : AggregationState) (i : Nat)
    (hi : i < st.group_states.length) :
    (st.group_states.getD i default).group_by_values = (aggKeys st).getD i [] := by
  rw [List.getD_eq_getElem?_getD, List.getD_eq_getElem?_getD,
    List.getElem?_eq_getElem hi]
  have : (aggKeys st)[i]? = some ((st.group_states[i]).group_by_values) := by
    rw [aggKeys, List.getElem?_map, List.getElem?_eq_getElem hi]
    rfl
  rw [this]
  rfl

theorem map_set_keys (l : List RowGroupState) (i : Nat) (gs' : RowGroupState)
    (hk : gs'.group_by_values = (l.getD i default).group_by_values) :
    (l.set i gs').map (fun gs => gs.group_by_values) =
      l.map fun gs => gs.group_by_values := by
  apply List.ext_getElem?
  intro j
  rw [List.getElem?_map, List.getElem?_map, List.getElem?_set]
  by_cases hij : i = j
  · subst hij
    by_cases hlen : i < l.length
    · rw [if_pos rfl, if_pos hlen, List.getElem?_eq_getElem hlen]
      have : (l.getD i default).group_by_values = l[i].group_by_values := by
        rw [List.getD_eq_getElem?_getD, List.getElem?_eq_getElem hlen]
        rfl
      show some (gs'.group_by_values) = some (l[i].group_by_values)
      rw [hk, this]
    · rw [if_pos rfl, if_neg hlen, List.getElem?_eq_none (by omega)]
  · rw [if_neg hij]

theorem aggRowHit_invariants (st : AggregationState)
    (pool : ShortLivedMemoryPool) (gwr : List Nat) (gi row : Nat) :
    aggKeys (aggRowHit st pool gwr gi row).1 = aggKeys st ∧
    (aggRowHit st pool gwr gi row).1.map = st.map := by
  constructor
  · show (st.group_states.set gi _).map _ = _
    apply map_set_keys
    show ((if _ then _ else _ : RowGroupState × ShortLivedMemoryPool).1).group_by_values = _
    split <;> rfl
  · rfl

theorem aggRowMiss_invariants (W : Nat) (key : List Nat) (hash : Nat)
    (st : AggregationState) (pool : ShortLivedMemoryPool) (gwr : List Nat)
    (row : Nat) :
    aggKeys (aggRowMiss W key hash st pool gwr row).1 = aggKeys st ++ [key] ∧
    (aggRowMiss W key hash st pool gwr row).1.map =
      st.map ++ [(hash, st.group_states.length)] := by
  constructor
  · show (st.group_states ++ [_]).map _ = _
    rw [List.map_append]
    rfl
  · rfl

theorem find_none_not_mem (h : List Nat → Nat) (st : AggregationState)
    (key : List Nat) (hinv : MapInv h st)
    (hf : st.map.find? (fun e => e.1 == h key &&
      ((st.group_states.getD e.2 default).group_by_values == key)) = none) :
    key ∉ aggKeys st := by
  intro hmem
  obtain ⟨i, hi, hik⟩ := List.mem_iff_getElem.mp hmem
  have hgetD : (aggKeys st).getD i [] = key := by
    rw [List.getD_eq_getElem?_getD, List.getElem?_eq_getElem hi, hik]
    rfl
  have hentry : (h ((aggKeys st).getD i []), i) ∈ st.map := by
    rw [hinv]
    exact List.mem_map.mpr ⟨i, List.mem_range.mpr hi, rfl⟩
  have := List.find?_eq_none.mp hf _ hentry
  apply this
  simp only [Bool.and_eq_true, beq_iff_eq]
  refine ⟨by rw [hgetD], ?_⟩
  rw [group_key_getD st i (by rw [← aggKeys_length st]; exact hi), hgetD]

theorem find_some_key_mem (h : List Nat → Nat) (st : AggregationState)
    (key : List Nat) (hash : Nat) (e : Nat × Nat) (hinv : MapInv h st)
    (hf : st.map.find? (fun e => e.1 == hash &&
      ((st.group_states.getD e.2 default).group_by_values == key)) = some e) :
    key ∈ aggKeys st ∧ e.2 < st.group_states.length := by
  have hpred := List.find?_some hf
  have hmem := List.mem_of_find?_eq_some hf
  rw [hinv] at hmem
  obtain ⟨i, hi, hei⟩ := List.mem_map.mp hmem
  have hi' : i < (aggKeys st).length := List.mem_range.mp hi
  have he2 : e.2 = i := by rw [← hei]
  simp only [Bool.and_eq_true, beq_iff_eq] at hpred
  have hlt : e.2 < st.group_states.length := by
    rw [he2, ← aggKeys_length st]
    exact hi'
  refine ⟨?_, hlt⟩
  have hkey := hpred.2
  rw [group_key_getD st e.2 hlt] at hkey
  rw [← hkey]
  have hb : e.2 < (aggKeys st).length := by
    rw [aggKeys_length]
    exact hlt
  rw [List.getD_eq_getElem?_getD, List.getElem?_eq_getElem hb]
  exact List.getElem_mem hb

theorem aggRowStep_keys (h : List Nat → Nat) (W : Nat) (keys : List (List Nat))
    (st : AggregationState) (pool : ShortLivedMemoryPool) (gwr : List Nat)
    (row hash : Nat) (hhash : hash = h (keys.getD row []))
    (hinv : MapInv h st) :
    aggKeys (aggRowStep W keys (st, pool, gwr) (row, hash)).1 =
      focStep (aggKeys st) (keys.getD row []) ∧
    MapInv h (aggRowStep W keys (st, pool, gwr) (row, hash)).1 := by
  cases hf : st.map.find? (fun e => e.1 == hash &&
      ((st.group_states.getD e.2 default).group_by_values ==
        keys.getD row [])) with
  | some e =>
    have hred : aggRowStep W keys (st, pool, gwr) (row, hash) =
        aggRowHit st pool gwr e.2 row := by
      simp only [aggRowStep]
      rw [hf]
    obtain ⟨hmem, hlt⟩ := find_some_key_mem h st (keys.getD row []) hash e hinv hf
    obtain ⟨hkeys, hmap⟩ := aggRowHit_invariants st pool gwr e.2 row
    rw [hred, hkeys]
    refine ⟨by rw [focStep, if_pos hmem], ?_⟩
    rw [MapInv, hkeys, hmap]
    exact hinv
  | none =>
    have hred : aggRowStep W keys (st, pool, gwr) (row, hash) =
        aggRowMiss W (keys.getD row []) hash st pool gwr row := by
      simp only [aggRowStep]
      rw [hf]
    have hnomem : keys.getD row [] ∉ aggKeys st := by
      apply find_none_not_mem h st (keys.getD row []) hinv
      rw [← hhash]
      exact hf
    obtain ⟨hkeys, hmap⟩ :=
      aggRowMiss_invariants W (keys.getD row []) hash st pool gwr row
    rw [hred, hkeys]
    refine ⟨by rw [focStep, if_neg hnomem], ?_⟩
    rw [MapInv, hkeys, hmap, hinv]
    rw [List.length_append, List.length_singleton, List.range_succ,
      List.map_append]
    congr 1
    · apply List.map_congr_left
      intro i hi
      have hi' : i < (aggKeys st).length := List.mem_range.mp hi
      rw [List.getD_append _ _ _ i hi']
    · rw [List.map_singleton,
        List.getD_append_right _ _ _ _ (Nat.le_refl _), Nat.sub_self,
        aggKeys_length, hhash]
      rfl

theorem foldAggRows_keys (h : List Nat → Nat) (W : Nat) (keys : List (List Nat))
    (rows : List (Nat × Nat))
    (hrows : ∀ rh ∈ rows, rh.2 = h (keys.getD rh.1 [])) :
    ∀ (st : AggregationState) (pool : ShortLivedMemoryPool) (gwr : List Nat),
      MapInv h st →
      aggKeys (rows.foldl (fun acc rh => aggRowStep W keys acc rh)
          (st, pool, gwr)).1 =
        rows.foldl (fun acc rh => focStep acc (keys.getD rh.1 []))
          (aggKeys st) ∧
      MapInv h (rows.foldl (fun acc rh => aggRowStep W keys acc rh)
          (st, pool, gwr)).1 := by
  induction rows with
  | nil => intro st pool gwr hinv; exact ⟨rfl, hinv⟩
  | cons rh tl ih =>
    intro st pool gwr hinv
    rw [List.foldl_cons, List.foldl_cons]
    obtain ⟨h1, h2⟩ := aggRowStep_keys h W keys st pool gwr rh.1 rh.2
      (hrows rh (List.mem_cons_self rh tl)) hinv
    have hstep : aggRowStep W keys (st, pool, gwr) (rh.1, rh.2) =
        aggRowStep W keys (st, pool, gwr) rh := rfl
    rw [hstep] at h1 h2
    obtain ⟨h3, h4⟩ := ih (fun rh' hrh' => hrows rh' (List.mem_cons_of_mem _ hrh'))
      (aggRowStep W keys (st, pool, gwr) rh).1
      (aggRowStep W keys (st, pool, gwr) rh).2.1
      (aggRowStep W keys (st, pool, gwr) rh).2.2 h2
    refine ⟨?_, h4⟩
    rw [← h1, ← h3]

theorem updateGroups_invariants
    (upd : List Nat → List Int → Except String (List Nat)) (vals : List Int) :
    ∀ (gis : List Nat) (st : AggregationState),
      aggKeys (updateGroups upd vals gis st).1 = aggKeys st ∧
      (updateGroups upd vals gis st).1.map = st.map := by
  intro gis
  induction gis with
  | nil => intro st; exact ⟨rfl, rfl⟩
  | cons gi tl ih =>
    intro st
    simp only [updateGroups]
    split
    · refine ⟨?_, ?_⟩
      · rw [(ih _).1]
        exact map_set_keys _ _ _ rfl
      · rw [(ih _).2]
    · exact ⟨map_set_keys _ _ _ rfl, rfl⟩

theorem enum_map_hash_snd (h : List Nat → Nat) (keys : List (List Nat)) :
    ∀ rh ∈ (create_row_hashes h keys).enum, rh.2 = h (keys.getD rh.1 []) := by
  intro rh hrh
  have hget := List.mem_enum_iff_getElem?.mp hrh
  rw [create_row_hashes, List.getElem?_map] at hget
  cases hk : keys[rh.1]? with
  | none => rw [hk] at hget; exact absurd hget (by simp)
  | some k =>
    rw [hk] at hget
    have hm : Option.map h (some k) = some (h k) := rfl
    rw [hm, Option.some_inj] at hget
    rw [List.getD_eq_getElem?_getD, hk, ← hget]
    rfl

theorem foldl_enumFrom_focStep (keys : List (List Nat)) :
    ∀ (hs : List Nat) (k : Nat), k + hs.length = keys.length →
      ∀ a, (hs.enumFrom k).foldl (fun acc rh => focStep acc (keys.getD rh.1 [])) a
        = (keys.drop k).foldl focStep a := by
  intro hs
  induction hs with
  | nil =>
    intro k hk a
    have hk' : k = keys.length := by simpa using hk
    rw [List.drop_eq_nil_of_le (le_of_eq hk'.symm)]
    rfl
  | cons b tl ih =>
    intro k hk a
    have hlen : (b :: tl).length = tl.length + 1 := rfl
    have hklt : k < keys.length := by rw [← hk, hlen]; omega
    rw [List.enumFrom_cons, List.foldl_cons,
      List.drop_eq_getElem_cons hklt, List.foldl_cons]
    have hgd : keys.getD k [] = keys[k] := by
      rw [List.getD_eq_getElem?_getD, List.getElem?_eq_getElem hklt]
      rfl
    rw [hgd]
    exact ih (k + 1) (by rw [← hk, hlen]; omega) _

theorem group_aggregate_batch_keys (h : List Nat → Nat)
    (upd : List Nat → List Int → Except String (List Nat)) (W : Nat)
    (batch : List (List Nat × Int)) (st : AggregationState)
    (hinv : MapInv h st) :
    aggKeys (group_aggregate_batch h upd W batch st).1 =
      (batch.map fun r => r.1).foldl focStep (aggKeys st) ∧
    MapInv h (group_aggregate_batch h upd W batch st).1 := by
  obtain ⟨hf1, hf2⟩ := foldAggRows_keys h W (batch.map fun r => r.1)
    ((create_row_hashes h (batch.map fun r => r.1)).enum)
    (enum_map_hash_snd h (batch.map fun r => r.1))
    st (ShortLivedMemoryPool.new st.used) [] hinv
  obtain ⟨hu1, hu2⟩ := updateGroups_invariants upd (batch.map fun r => r.2)
    ((create_row_hashes h (batch.map fun r => r.1)).enum.foldl
      (fun acc rh => aggRowStep W (batch.map fun r => r.1) acc rh)
      (st, ShortLivedMemoryPool.new st.used, ([] : List Nat))).2.2
    ((create_row_hashes h (batch.map fun r => r.1)).enum.foldl
      (fun acc rh => aggRowStep W (batch.map fun r => r.1) acc rh)
      (st, ShortLivedMemoryPool.new st.used, ([] : List Nat))).1
  have e1 : aggKeys (group_aggregate_batch h upd W batch st).1 =
      aggKeys (updateGroups upd (batch.map fun r => r.2)
        ((create_row_hashes h (batch.map fun r => r.1)).enum.foldl
          (fun acc rh => aggRowStep W (batch.map fun r => r.1) acc rh)
          (st, ShortLivedMemoryPool.new st.used, ([] : List Nat))).2.2
        ((create_row_hashes h (batch.map fun r => r.1)).enum.foldl
          (fun acc rh => aggRowStep W (batch.map fun r => r.1) acc rh)
          (st, ShortLivedMemoryPool.new st.used, ([] : List Nat))).1).1 := rfl
  have e2 : (group_aggregate_batch h upd W batch st).1.map =
      (updateGroups upd (batch.map fun r => r.2)
        ((create_row_hashes h (batch.map fun r => r.1)).enum.foldl
          (fun acc rh => aggRowStep W (batch.map fun r => r.1) acc rh)
          (st, ShortLivedMemoryPool.new st.used, ([] : List Nat))).2.2
        ((create_row_hashes h (batch.map fun r => r.1)).enum.foldl
          (fun acc rh => aggRowStep W (batch.map fun r => r.1) acc rh)
          (st, ShortLivedMemoryPool.new st.used, ([] : List Nat))).1).1.map := rfl
  constructor
  · rw [e1, hu1, hf1]
    have he : (create_row_hashes h (batch.map fun r => r.1)).enum =
        (create_row_hashes h (batch.map fun r => r.1)).enumFrom 0 := rfl
    rw [he, foldl_enumFrom_focStep (batch.map fun r => r.1)
      (create_row_hashes h (batch.map fun r => r.1)) 0
      (by rw [create_row_hashes, List.length_map, List.length_map]; omega),
      List.drop_zero]
  · rw [MapInv, e2, hu2, e1, hu1]
    exact hf2

theorem runBatches_keys (h : List Nat → Nat)
    (upd : List Nat → List Int → Except String (List Nat)) (W : Nat) :
    ∀ (batches : List (List (List Nat × Int))) (st : AggregationState),
      MapInv h st →
      aggKeys (runBatches h upd W st batches) =
        (batches.flatMap fun b => b.map fun r => r.1).foldl focStep
          (aggKeys st) ∧
      MapInv h (runBatches h upd W st batches) := by
  intro batches
  induction batches with
  | nil => intro st hinv; exact ⟨rfl, hinv⟩
  | cons b rest ih =>
    intro st hinv
    rw [runBatches]
    obtain ⟨h1, h2⟩ := group_aggregate_batch_keys h upd W b st hinv
    obtain ⟨h3, h4⟩ := ih (group_aggregate_batch h upd W b st).1 h2
    refine ⟨?_, h4⟩
    rw [h3, h1, List.flatMap_cons, List.foldl_append]

/-- **C6.** Group indices are first-appearance ranks and the output
follows creation order: over any input stream (any batches, any row
hasher, any accumulator), the keys of `group_states` after ingestion are
exactly the first occurrences of the input keys in stream order across
all batches; the `RawTable` maps each group's hash to its index `i`,
which is therefore the first-appearance rank of its key; and the rows of
the concatenated emitted output (the emit loop from skip position 0) are
the groups in exactly this creation order. -/
theorem group_index_first_appearance (h : List Nat → Nat)
    (upd : List Nat → List Int → Except String (List Nat)) (W : Nat)
    (batches : List (List (List Nat × Int))) (bs fuel : Nat) (hbs : 0 < bs)
    (hfuel : (runBatches h upd W initialAggregationState
      batches).group_states.length + 2 ≤ fuel) :
    aggKeys (runBatches h upd W initialAggregationState batches) =
      firstOccurrences (batches.flatMap fun b => b.map fun r => r.1) ∧
    MapInv h (runBatches h upd W initialAggregationState batches) ∧
    (emitFrom bs (runBatches h upd W initialAggregationState
        batches).group_states 0 fuel).flatten.map (fun r => r.1) =
      aggKeys (runBatches h upd W initialAggregationState batches) := by
  obtain ⟨h1, h2⟩ := runBatches_keys h upd W batches initialAggregationState rfl
  refine ⟨by rw [h1]; rfl, h2, ?_⟩
  rw [emitFrom_flatten bs _ hbs fuel 0 (by omega) (Nat.zero_le _),
    List.drop_zero, List.map_map]
  rfl

/-- Witness for `group_index_first_appearance`: three rows over two
batches with the keys `[1], [2], [1], [3]` (a repeated key and a
constant, colliding hash function), batch size 2, fuel 4. -/
theorem group_index_first_appearance_witness :
    (0 < 2 ∧
      (runBatches (fun _ => 0) okUpd 0 initialAggregationState
        [[([1], 0), ([2], 0)], [([1], 0), ([3], 0)]]).group_states.length + 2
        ≤ 5) ∧
    (aggKeys (runBatches (fun _ => 0) okUpd 0 initialAggregationState
        [[([1], 0), ([2], 0)], [([1], 0), ([3], 0)]]) =
      firstOccurrences (([[([1], 0), ([2], 0)], [([1], 0), ([3], 0)]] :
          List (List (List Nat × Int))).flatMap fun b => b.map fun r => r.1) ∧
    MapInv (fun _ => 0) (runBatches (fun _ => 0) okUpd 0
      initialAggregationState [[([1], 0), ([2], 0)], [([1], 0), ([3], 0)]]) ∧
    (emitFrom 2 (runBatches (fun _ => 0) okUpd 0 initialAggregationState
        [[([1], 0), ([2], 0)], [([1], 0), ([3], 0)]]).group_states 0
        5).flatten.map (fun r => r.1) =
      aggKeys (runBatches (fun _ => 0) okUpd 0 initialAggregationState
        [[([1], 0), ([2], 0)], [([1], 0), ([3], 0)]])) :=
  ⟨⟨by decide, by decide⟩,
    group_index_first_appearance (fun _ => 0) okUpd 0
      [[([1], 0), ([2], 0)], [([1], 0), ([3], 0)]] 2 5 (by decide) (by decide)⟩

end DF
